import Mathlib

/-!
Shallow embedding of the `url` package of `oleiade/sobek-webapi-url`
(files `src/url/error.go` and `src/url/url.go`), together with theorems
settling the specification claims about it.

Go strings are byte sequences; the form codec of `error.go` works
byte-wise and may produce bytes that are not valid UTF-8.  We therefore
model a Go string as a `List Nat` of bytes (each `< 256` for strings
that come from real Go values) and translate the codec functions
byte-for-byte from the source.
-/

namespace SobekURL

/-- A Go string, viewed as its byte sequence. -/
abbrev ByteStr := List Nat

/-- A key/value pair of `URLSearchParams` (`urlParam` in `error.go`). -/
abbrev Param := ByteStr × ByteStr

/-- All bytes of a Go string are `< 256`. -/
def ValidBytes (s : ByteStr) : Prop := ∀ b ∈ s, b < 256

instance : DecidablePred ValidBytes := fun s =>
  inferInstanceAs (Decidable (∀ b ∈ s, b < 256))

/-- `unhex` from `error.go`: the value of a hex digit, or `-1` if invalid. -/
def unhex (c : Nat) : Int :=
  if 48 ≤ c ∧ c ≤ 57 then (c : Int) - 48          -- '0'..'9'
  else if 97 ≤ c ∧ c ≤ 102 then (c : Int) - 97 + 10 -- 'a'..'f'
  else if 65 ≤ c ∧ c ≤ 70 then (c : Int) - 65 + 10  -- 'A'..'F'
  else -1

/-- `hexDigit` from `error.go`: upper-case hex digit for `n < 16`. -/
def hexDigit (n : Nat) : Nat :=
  if n < 10 then 48 + n        -- '0' + n
  else 65 + n - 10             -- 'A' + n - 10

/-- `percentDecode` from `error.go`: byte-wise scan; `%` followed by two
valid hex digits decodes to the byte `hi<<4 | lo`; any other `%` (and every
other byte) is copied unchanged.  The guard `i+2 < len(s)` of the Go loop
corresponds to the list having at least two bytes after the `%`. -/
def percentDecode : ByteStr → ByteStr
  | [] => []
  | 37 :: h :: l :: rest =>                          -- '%' with two bytes left
    if 0 ≤ unhex h ∧ 0 ≤ unhex l then
      ((unhex h).toNat <<< 4 ||| (unhex l).toNat) :: percentDecode rest
    else
      37 :: percentDecode (h :: l :: rest)
  | b :: bs => b :: percentDecode bs

/-- `formEncode` from `error.go`: byte-wise form encoding.  Space becomes
`+`; `*`, `-`, `.`, `_` and alphanumerics are copied; every other byte is
percent-encoded with `hexDigit`. -/
def formEncode : ByteStr → ByteStr
  | [] => []
  | c :: cs =>
    (if c = 32 then [43]                                 -- ' ' ↦ '+'
     else if c = 42 ∨ c = 45 ∨ c = 46 ∨ c = 95 then [c]  -- '*' '-' '.' '_'
     else if 48 ≤ c ∧ c ≤ 57 then [c]                    -- '0'..'9'
     else if 65 ≤ c ∧ c ≤ 90 then [c]                    -- 'A'..'Z'
     else if 97 ≤ c ∧ c ≤ 122 then [c]                   -- 'a'..'z'
     else [37, hexDigit (c >>> 4), hexDigit (c &&& 15)]) -- '%' + hex
    ++ formEncode cs

/-- `strings.Split` for a one-byte separator: splits into (possibly empty)
segments; the result is never the empty list. -/
def splitSep (sep : Nat) : ByteStr → List ByteStr
  | [] => [[]]
  | c :: cs =>
    match splitSep sep cs with
    | [] => [[c]]
    | r :: rs => if c = sep then [] :: r :: rs else (c :: r) :: rs

/-- `strings.Index`-based cut at the first occurrence of `sep`:
`some (before, after)` when `sep` occurs, `none` otherwise. -/
def cutFirst (sep : Nat) : ByteStr → Option (ByteStr × ByteStr)
  | [] => none
  | c :: cs =>
    if c = sep then some ([], cs)
    else
      match cutFirst sep cs with
      | none => none
      | some (k, v) => some (c :: k, v)

/-- `strings.ReplaceAll(s, "+", " ")` at the byte level. -/
def plusToSpace (s : ByteStr) : ByteStr :=
  s.map fun c => if c = 43 then 32 else c

/-- Per-segment work of `parseFormEncoded`: split at the first `=` (absent
`=` yields an empty value), replace `+` with space in key and value, then
percent-decode each independently. -/
def parseSeg (seg : ByteStr) : Param :=
  let kv : ByteStr × ByteStr :=
    match cutFirst 61 seg with                       -- '='
    | some (k, v) => (k, v)
    | none => (seg, [])
  (percentDecode (plusToSpace kv.1), percentDecode (plusToSpace kv.2))

/-- The loop of `parseFormEncoded`: empty segments are skipped, the rest
are parsed in order. -/
def parseSegs : List ByteStr → List Param
  | [] => []
  | seg :: rest =>
    if seg = [] then parseSegs rest else parseSeg seg :: parseSegs rest

/-- `parseFormEncoded` from `error.go`. -/
def parseFormEncoded (s : ByteStr) : List Param :=
  if s = [] then [] else parseSegs (splitSep 38 s)    -- '&'

/-- `strings.Join(parts, sep)` for a one-byte separator. -/
def joinSep (sep : Nat) : List ByteStr → ByteStr
  | [] => []
  | [x] => x
  | x :: xs => x ++ sep :: joinSep sep xs

/-- `encodeFormEncoded` from `error.go`: join `formEncode key = formEncode
value` parts with `&`; the empty collection encodes to the empty string. -/
def encodeFormEncoded (entries : List Param) : ByteStr :=
  if entries = [] then []
  else joinSep 38 (entries.map fun p => formEncode p.1 ++ 61 :: formEncode p.2)

/-- The loop of `Set` from `error.go`, with its `found` flag: the first
pair whose key matches gets the new value, later matches are dropped,
and when no match was found the new pair is appended at the end. -/
def setLoop (key value : ByteStr) : Bool → List Param → List Param
  | found, [] => if found then [] else [(key, value)]
  | found, p :: ps =>
    if p.1 = key then
      if found then setLoop key value true ps
      else (key, value) :: setLoop key value true ps
    else p :: setLoop key value found ps

/-- `Set` from `error.go` (its effect on the entry list). -/
def setParam (key value : ByteStr) (entries : List Param) : List Param :=
  setLoop key value false entries

/-- `Append` from `error.go` (its effect on the entry list). -/
def appendParam (key value : ByteStr) (entries : List Param) : List Param :=
  entries ++ [(key, value)]

/-- `Delete` from `error.go` (its effect on the entry list): removes every
pair with the given key, and when a value filter is present only pairs
matching key and value. -/
def deleteParam (key : ByteStr) (value : Option ByteStr) (entries : List Param) :
    List Param :=
  entries.filter fun p =>
    !(p.1 = key && (value.isNone || value = some p.2))

/-- One step of Go's `[]rune(s)` conversion (UTF-8 decoding): the code
point decoded at the head byte and the number of extra bytes consumed.
Invalid sequences yield `U+FFFD` for the leading byte alone, exactly as
Go's `utf8.DecodeRuneInString` does. -/
def utf8Step (b : Nat) (bs : ByteStr) : Nat × Nat :=
  let cont : Nat → Bool := fun x => 128 ≤ x && x < 192
  if b < 128 then (b, 0)
  else if b < 194 then (0xFFFD, 0)                    -- continuation / overlong lead
  else if b < 224 then                                -- two-byte sequence
    match bs with
    | b1 :: _ =>
      if cont b1 then ((b - 192) * 64 + (b1 - 128), 1) else (0xFFFD, 0)
    | _ => (0xFFFD, 0)
  else if b < 240 then                                -- three-byte sequence
    match bs with
    | b1 :: b2 :: _ =>
      if cont b1 && cont b2 && !(b == 224 && b1 < 160) && !(b == 237 && 160 ≤ b1)
      then ((b - 224) * 4096 + (b1 - 128) * 64 + (b2 - 128), 2)
      else (0xFFFD, 0)
    | _ => (0xFFFD, 0)
  else if b < 245 then                                -- four-byte sequence
    match bs with
    | b1 :: b2 :: b3 :: _ =>
      if cont b1 && cont b2 && cont b3 && !(b == 240 && b1 < 144) && !(b == 244 && 144 ≤ b1)
      then ((b - 240) * 262144 + (b1 - 128) * 4096 + (b2 - 128) * 64 + (b3 - 128), 3)
      else (0xFFFD, 0)
    | _ => (0xFFFD, 0)
  else (0xFFFD, 0)

/-- UTF-8 decoding loop, with fuel bounding the number of runes (each
step consumes at least one byte, so `s.length` fuel is always enough). -/
def toRunesAux : Nat → ByteStr → List Nat
  | 0, _ => []
  | _, [] => []
  | fuel + 1, b :: bs =>
    let s := utf8Step b bs
    s.1 :: toRunesAux fuel (bs.drop s.2)

/-- Go's `[]rune(s)`: UTF-8 decoding of the byte string into code points,
invalid bytes becoming `U+FFFD`. -/
def toRunes (s : ByteStr) : List Nat :=
  toRunesAux s.length s

/-- The repeated compare-and-return block of `compareByCodeUnits`
(`if x != y { if x < y { return -1 }; return 1 }`). -/
def cmpNat (x y : Nat) : Int :=
  if x ≠ y then (if x < y then -1 else 1) else 0

/-- `runeToCodeUnits` from `error.go`: the UTF-16 code unit(s) of a code
point — itself below `0x10000`, otherwise the surrogate pair (high
first: `0xD800 + v >> 10`, then `0xDC00 + v & 0x3FF`). -/
def runeToCodeUnits (r : Nat) : Nat × Option Nat :=
  if r < 65536 then (r, none)
  else (55296 + (r - 65536) / 1024, some (56320 + (r - 65536) % 1024))

/-- The body of the comparison loop of `compareByCodeUnits`: compare the
code units of the runes at one position (first units, then the second
units, a lone unit ordering below a surrogate pair with equal high
unit). -/
def cmpUnitsAt (a b : Nat) : Int :=
  match runeToCodeUnits a, runeToCodeUnits b with
  | (a0, a1), (b0, b1) =>
    if cmpNat a0 b0 ≠ 0 then cmpNat a0 b0
    else
      match a1, b1 with
      | some au, some bu => cmpNat au bu
      | some _, none => 1                              -- a has a pair, b does not
      | none, some _ => -1
      | none, none => 0

/-- The loop of `compareByCodeUnits` over the two rune sequences, with the
final length comparison. -/
def compareRunes : List Nat → List Nat → Int
  | [], [] => 0
  | [], _ :: _ => -1
  | _ :: _, [] => 1
  | a :: as, b :: bs =>
    if cmpUnitsAt a b ≠ 0 then cmpUnitsAt a b else compareRunes as bs

/-- `compareByCodeUnits` from `error.go`: compare two Go strings as
sequences of UTF-16 code units (via `[]rune` conversion). -/
def compareByCodeUnits (a b : ByteStr) : Int :=
  compareRunes (toRunes a) (toRunes b)

/-- Stable insertion of one element into an already sorted list, placing
it before the first element that is not strictly below it. -/
def insertStable (lt : Param → Param → Bool) (x : Param) : List Param → List Param
  | [] => [x]
  | y :: ys => if lt y x then y :: insertStable lt x ys else x :: y :: ys

/-- Modelled from the spec: Go's `sort.SliceStable` (standard library,
not part of this repository) is contracted to be a stable sort with
respect to the supplied `less` relation; insertion sort realizes that
contract. -/
def sortStable (lt : Param → Param → Bool) : List Param → List Param
  | [] => []
  | x :: xs => insertStable lt x (sortStable lt xs)

/-- The `less` closure of `Sort` from `error.go`: compare keys only, by
UTF-16 code units. -/
def sortLess (p q : Param) : Bool :=
  compareByCodeUnits p.1 q.1 < 0

/-- `Sort` from `error.go` (its effect on the entry list). -/
def sortParams (entries : List Param) : List Param :=
  sortStable sortLess entries

/-! ### Spec-side vocabulary

These definitions follow the wording of the specification (valid hex
digits, the set of literally-copied bytes, …); the theorems below relate
the source translations to them. -/

/-- A valid hexadecimal digit byte (`0-9`, `a-f`, `A-F`). -/
def isHexDigit (c : Nat) : Prop :=
  (48 ≤ c ∧ c ≤ 57) ∨ (97 ≤ c ∧ c ≤ 102) ∨ (65 ≤ c ∧ c ≤ 70)

instance (c : Nat) : Decidable (isHexDigit c) := by unfold isHexDigit; infer_instance

/-- The numeric value of a hexadecimal digit byte. -/
def hexVal (c : Nat) : Nat :=
  if c ≤ 57 then c - 48 else if 97 ≤ c then c - 87 else c - 55

/-- An upper-case hexadecimal digit byte (`0-9`, `A-F`). -/
def isUpperHexDigit (c : Nat) : Prop :=
  (48 ≤ c ∧ c ≤ 57) ∨ (65 ≤ c ∧ c ≤ 70)

instance (c : Nat) : Decidable (isUpperHexDigit c) := by
  unfold isUpperHexDigit; infer_instance

/-- The bytes `formEncode` copies literally:
`*`, `-`, `.`, `_`, `0-9`, `A-Z`, `a-z`. -/
def isLiteralByte (b : Nat) : Prop :=
  b = 42 ∨ b = 45 ∨ b = 46 ∨ b = 95 ∨
  (48 ≤ b ∧ b ≤ 57) ∨ (65 ≤ b ∧ b ≤ 90) ∨ (97 ≤ b ∧ b ≤ 122)

instance (b : Nat) : Decidable (isLiteralByte b) := by unfold isLiteralByte; infer_instance

/-! ### Basic facts about the hex helpers -/

theorem unhex_nonneg_iff (c : Nat) : 0 ≤ unhex c ↔ isHexDigit c := by
  unfold unhex isHexDigit
  split_ifs with h1 h2 h3 <;> constructor <;> intro h <;> omega

theorem unhex_toNat (c : Nat) (h : isHexDigit c) : (unhex c).toNat = hexVal c := by
  unfold unhex hexVal isHexDigit at *
  split_ifs <;> omega

theorem shiftLeft_or_eq (h l : Nat) (hh : h < 16) (hl : l < 16) :
    h <<< 4 ||| l = 16 * h + l := by
  revert hh hl
  have : ∀ h < 16, ∀ l < 16, h <<< 4 ||| l = 16 * h + l := by decide
  exact fun hh hl => this h hh l hl

theorem hexVal_lt (c : Nat) (h : isHexDigit c) : hexVal c < 16 := by
  unfold hexVal isHexDigit at *
  split_ifs <;> omega

theorem hexDigit_val (n : Nat) (hn : n < 16) :
    isUpperHexDigit (hexDigit n) ∧ hexVal (hexDigit n) = n := by
  revert hn
  have : ∀ n < 16, isUpperHexDigit (hexDigit n) ∧ hexVal (hexDigit n) = n := by decide
  exact this n

theorem hexDigit_isHex (n : Nat) (hn : n < 16) : isHexDigit (hexDigit n) := by
  revert hn
  have : ∀ n < 16, isHexDigit (hexDigit n) := by decide
  exact this n

theorem unhex_hexDigit (n : Nat) (hn : n < 16) : unhex (hexDigit n) = n := by
  revert hn
  have : ∀ n < 16, unhex (hexDigit n) = n := by decide
  exact this n

/-! ### Unfolding equations for `percentDecode` -/

theorem percentDecode_nil : percentDecode [] = [] := rfl

theorem percentDecode_escape (h l : Nat) (rest : ByteStr)
    (hh : isHexDigit h) (hl : isHexDigit l) :
    percentDecode (37 :: h :: l :: rest) =
      ((unhex h).toNat <<< 4 ||| (unhex l).toNat) :: percentDecode rest := by
  rw [percentDecode]
  rw [if_pos ⟨(unhex_nonneg_iff h).mpr hh, (unhex_nonneg_iff l).mpr hl⟩]

theorem percentDecode_escape_invalid (h l : Nat) (rest : ByteStr)
    (hv : ¬(isHexDigit h ∧ isHexDigit l)) :
    percentDecode (37 :: h :: l :: rest) = 37 :: percentDecode (h :: l :: rest) := by
  rw [percentDecode]
  rw [if_neg]
  intro ⟨hh, hl⟩
  exact hv ⟨(unhex_nonneg_iff h).mp hh, (unhex_nonneg_iff l).mp hl⟩

theorem percentDecode_cons (b : Nat) (bs : ByteStr) (hb : b ≠ 37) :
    percentDecode (b :: bs) = b :: percentDecode bs := by
  match bs with
  | [] => simp [percentDecode]
  | [x] => simp [percentDecode]
  | x :: y :: rest =>
    rw [percentDecode.eq_def]
    split
    · rename_i heq; simp at heq
    · rename_i heq; injection heq with h1 h2; exact absurd h1 hb
    · rename_i heq; injection heq with h1 h2; subst h1; subst h2; rfl

theorem percentDecode_percent_short (bs : ByteStr) (h : bs.length < 2) :
    percentDecode (37 :: bs) = 37 :: percentDecode bs := by
  match bs with
  | [] => rfl
  | [x] => rfl

/-! ### `formEncode` as a per-byte map -/

/-- The per-byte encoding of `formEncode`, in the spec's vocabulary. -/
def encByte (c : Nat) : ByteStr :=
  if c = 32 then [43]
  else if isLiteralByte c then [c]
  else [37, hexDigit (c >>> 4), hexDigit (c &&& 15)]

theorem formEncode_eq_flatMap (s : ByteStr) : formEncode s = s.flatMap encByte := by
  induction s with
  | nil => rfl
  | cons c cs ih =>
    rw [formEncode, ih, List.flatMap_cons]
    congr 1
    unfold encByte isLiteralByte
    split_ifs <;> first | rfl | omega

theorem hexDigit_ne (n : Nat) :
    hexDigit n ≠ 38 ∧ hexDigit n ≠ 61 ∧ hexDigit n ≠ 43 ∧ hexDigit n ≠ 37 := by
  unfold hexDigit; split_ifs <;> omega

theorem encByte_ne (c d : Nat) (hd : d ∈ encByte c) : d ≠ 38 ∧ d ≠ 61 := by
  unfold encByte isLiteralByte at hd
  split_ifs at hd with h1 h2
  · simp at hd; omega
  · simp at hd; omega
  · simp at hd
    rcases hd with h | h | h
    · omega
    · subst h; exact ⟨(hexDigit_ne _).1, (hexDigit_ne _).2.1⟩
    · subst h; exact ⟨(hexDigit_ne _).1, (hexDigit_ne _).2.1⟩

theorem formEncode_ne (s : ByteStr) (d : Nat) (hd : d ∈ formEncode s) :
    d ≠ 38 ∧ d ≠ 61 := by
  rw [formEncode_eq_flatMap] at hd
  simp only [List.mem_flatMap] at hd
  obtain ⟨c, _, hc⟩ := hd
  exact encByte_ne c d hc

/-! ### Decode after encode is the identity (per byte string) -/

theorem and_fifteen_lt (c : Nat) : c &&& 15 < 16 :=
  Nat.lt_succ_of_le Nat.and_le_right

theorem shiftRight_four_lt (c : Nat) (h : c < 256) : c >>> 4 < 16 := by
  rw [Nat.shiftRight_eq_div_pow]
  omega

set_option maxRecDepth 4096 in
theorem byte_recompose (c : Nat) (hc : c < 256) :
    (c >>> 4) <<< 4 ||| (c &&& 15) = c := by
  revert hc
  have : ∀ c < 256, (c >>> 4) <<< 4 ||| (c &&& 15) = c := by decide
  exact this c

theorem plusToSpace_cons (x : Nat) (t : ByteStr) :
    plusToSpace (x :: t) = (if x = 43 then 32 else x) :: plusToSpace t := rfl

theorem isLiteralByte_ne (c : Nat) (h : isLiteralByte c) :
    c ≠ 43 ∧ c ≠ 37 ∧ c ≠ 38 ∧ c ≠ 61 ∧ c ≠ 32 := by
  unfold isLiteralByte at h
  rcases h with h | h | h | h | h | h | h <;> omega

theorem percentDecode_plusToSpace_encByte (c : Nat) (hc : c < 256) (t : ByteStr) :
    percentDecode (plusToSpace (encByte c ++ t)) = c :: percentDecode (plusToSpace t) := by
  unfold encByte
  split_ifs with h1 h2
  · subst h1
    rw [show ([43] : ByteStr) ++ t = 43 :: t from rfl, plusToSpace_cons]
    rw [if_pos rfl, percentDecode_cons _ _ (by omega)]
  · rw [show ([c] : ByteStr) ++ t = c :: t from rfl, plusToSpace_cons]
    rw [if_neg (isLiteralByte_ne c h2).1, percentDecode_cons _ _ (isLiteralByte_ne c h2).2.1]
  · have hd1 : isHexDigit (hexDigit (c >>> 4)) :=
      hexDigit_isHex _ (shiftRight_four_lt c hc)
    have hd2 : isHexDigit (hexDigit (c &&& 15)) := hexDigit_isHex _ (and_fifteen_lt c)
    rw [List.cons_append, List.cons_append, List.cons_append, List.nil_append,
      plusToSpace_cons, plusToSpace_cons, plusToSpace_cons]
    rw [if_neg (by omega : (37 : Nat) ≠ 43), if_neg (hexDigit_ne (c >>> 4)).2.2.1,
      if_neg (hexDigit_ne (c &&& 15)).2.2.1]
    rw [percentDecode_escape _ _ _ hd1 hd2]
    rw [unhex_hexDigit _ (shiftRight_four_lt c hc), unhex_hexDigit _ (and_fifteen_lt c)]
    simp only [Int.toNat_natCast]
    rw [byte_recompose c hc]

theorem decode_encode (k : ByteStr) (hk : ValidBytes k) :
    percentDecode (plusToSpace (formEncode k)) = k := by
  induction k with
  | nil => rfl
  | cons c cs ih =>
    have hc : c < 256 := hk c (List.mem_cons_self _ _)
    have hcs : ValidBytes cs := fun b hb => hk b (List.mem_cons_of_mem _ hb)
    rw [formEncode_eq_flatMap, List.flatMap_cons, ← formEncode_eq_flatMap,
      percentDecode_plusToSpace_encByte c hc, ih hcs]

/-! ### Split / join / cut lemmas -/

theorem cutFirst_not_mem (sep : Nat) (a : ByteStr) (h : sep ∉ a) :
    cutFirst sep a = none := by
  induction a with
  | nil => rfl
  | cons c cs ih =>
    have hc : c ≠ sep := fun hc => h (hc ▸ List.mem_cons_self _ _)
    rw [cutFirst, if_neg hc, ih (fun hm => h (List.mem_cons_of_mem _ hm))]

theorem cutFirst_append (sep : Nat) (a b : ByteStr) (h : sep ∉ a) :
    cutFirst sep (a ++ sep :: b) = some (a, b) := by
  induction a with
  | nil => simp [cutFirst]
  | cons c cs ih =>
    have hc : c ≠ sep := fun hc => h (hc ▸ List.mem_cons_self _ _)
    rw [List.cons_append, cutFirst, if_neg hc,
      ih (fun hm => h (List.mem_cons_of_mem _ hm))]

theorem splitSep_cons_eq (sep c : Nat) (cs : ByteStr) :
    splitSep sep (c :: cs) =
      match splitSep sep cs with
      | [] => [[c]]
      | r :: rs => if c = sep then [] :: r :: rs else (c :: r) :: rs := rfl

theorem splitSep_ne_nil (sep : Nat) (s : ByteStr) : splitSep sep s ≠ [] := by
  cases s with
  | nil => simp [splitSep]
  | cons c cs =>
    rw [splitSep_cons_eq]
    cases h : splitSep sep cs with
    | nil => simp
    | cons r rs => split_ifs <;> simp

theorem splitSep_not_mem (sep : Nat) (p : ByteStr) (h : sep ∉ p) :
    splitSep sep p = [p] := by
  induction p with
  | nil => rfl
  | cons c cs ih =>
    have hc : c ≠ sep := fun hc => h (hc ▸ List.mem_cons_self _ _)
    rw [splitSep_cons_eq, ih (fun hm => h (List.mem_cons_of_mem _ hm))]
    simp [if_neg hc]

theorem splitSep_append (sep : Nat) (p rest : ByteStr) (h : sep ∉ p) :
    splitSep sep (p ++ sep :: rest) = p :: splitSep sep rest := by
  induction p with
  | nil =>
    rw [List.nil_append, splitSep_cons_eq]
    cases hs : splitSep sep rest with
    | nil => exact absurd hs (splitSep_ne_nil sep rest)
    | cons r rs => simp [← hs]
  | cons c cs ih =>
    have hc : c ≠ sep := fun hc => h (hc ▸ List.mem_cons_self _ _)
    rw [List.cons_append, splitSep_cons_eq, ih (fun hm => h (List.mem_cons_of_mem _ hm))]
    simp [if_neg hc]

theorem joinSep_cons_cons (sep c : Nat) (r : ByteStr) (rs : List ByteStr) :
    joinSep sep ((c :: r) :: rs) = c :: joinSep sep (r :: rs) := by
  cases rs <;> rfl

theorem joinSep_splitSep (sep : Nat) (s : ByteStr) :
    joinSep sep (splitSep sep s) = s := by
  induction s with
  | nil => rfl
  | cons c cs ih =>
    rw [splitSep_cons_eq]
    cases hs : splitSep sep cs with
    | nil => exact absurd hs (splitSep_ne_nil sep cs)
    | cons r rs =>
      rw [hs] at ih
      split_ifs with hc
      · subst hc
        show joinSep c ([] :: r :: rs) = c :: cs
        rw [show joinSep c ([] :: r :: rs) = c :: joinSep c (r :: rs) from rfl, ih]
      · rw [joinSep_cons_cons, ih]

theorem splitSep_joinSep (sep : Nat) (parts : List ByteStr)
    (hne : parts ≠ []) (h : ∀ p ∈ parts, sep ∉ p) :
    splitSep sep (joinSep sep parts) = parts := by
  induction parts with
  | nil => exact absurd rfl hne
  | cons p rest ih =>
    cases rest with
    | nil => exact splitSep_not_mem sep p (h p (List.mem_cons_self _ _))
    | cons q qs =>
      rw [show joinSep sep (p :: q :: qs) = p ++ sep :: joinSep sep (q :: qs) from rfl,
        splitSep_append sep p _ (h p (List.mem_cons_self _ _)),
        ih (by simp) (fun x hx => h x (List.mem_cons_of_mem _ hx))]

/-! ### Round trip of a single encoded segment -/

theorem parseSeg_encode (k v : ByteStr) (hk : ValidBytes k) (hv : ValidBytes v) :
    parseSeg (formEncode k ++ 61 :: formEncode v) = (k, v) := by
  have hcut := cutFirst_append 61 (formEncode k) (formEncode v)
    (fun hm => (formEncode_ne k 61 hm).2 rfl)
  unfold parseSeg
  rw [hcut]
  exact Prod.ext (decode_encode k hk) (decode_encode v hv)

theorem parseSegs_filter_map (l : List ByteStr) :
    parseSegs l = (l.filter (fun seg => seg ≠ [])).map parseSeg := by
  induction l with
  | nil => rfl
  | cons seg rest ih =>
    by_cases h : seg = []
    · subst h; rw [parseSegs, if_pos rfl, ih]; simp [List.filter_cons]
    · rw [parseSegs, if_neg h, ih, List.filter_cons, if_pos (by simp [h]), List.map_cons]

theorem parseSegs_map_encode (entries : List Param)
    (h : ∀ p ∈ entries, ValidBytes p.1 ∧ ValidBytes p.2) :
    parseSegs (entries.map fun p => formEncode p.1 ++ 61 :: formEncode p.2) = entries := by
  induction entries with
  | nil => rfl
  | cons e rest ih =>
    rw [List.map_cons, parseSegs, if_neg (by simp)]
    have he := h e (List.mem_cons_self _ _)
    rw [parseSeg_encode e.1 e.2 he.1 he.2, Prod.mk.eta,
      ih (fun p hp => h p (List.mem_cons_of_mem _ hp))]

theorem joinSep_ne_nil (sep : Nat) (parts : List ByteStr)
    (hne : parts ≠ []) (h : ∀ p ∈ parts, p ≠ []) : joinSep sep parts ≠ [] := by
  match parts with
  | [x] => exact h x (List.mem_cons_self _ _)
  | x :: y :: t =>
    rw [show joinSep sep (x :: y :: t) = x ++ sep :: joinSep sep (y :: t) from rfl]
    simp

example : percentDecode [49, 48, 48, 37, 32, 37, 50, 53] = [49, 48, 48, 37, 32, 37] := by decide
example : parseFormEncoded [97, 61, 49, 38, 38, 98] = [([97], [49]), ([98], [])] := by decide
example : encodeFormEncoded [([97], [49]), ([], [])] = [97, 61, 49, 38, 61] := by decide
example : parseFormEncoded (encodeFormEncoded [([], []), ([32, 255], [])]) =
    [([], []), ([32, 255], [])] := by decide

-- "b"=2, "a"=1, "b"=1 sorts stably to "a"=1, "b"=2, "b"=1 (the spec's example).
example : sortParams [([98], [50]), ([97], [49]), ([98], [49])] =
    [([97], [49]), ([98], [50]), ([98], [49])] := by decide

-- U+10000 (surrogate pair, high unit 0xD800) sorts before U+FFFF (BMP):
-- keys compare by UTF-16 code units, not by code point.
example : sortParams [([239, 191, 191], []), ([240, 144, 128, 128], [])] =
    [([240, 144, 128, 128], []), ([239, 191, 191], [])] := by decide

example : setParam [97] [57] [([97], [49]), ([98], [50]), ([97], [51])] =
    [([97], [57]), ([98], [50])] := by decide

example : setParam [99] [57] [([97], [49])] = [([97], [49]), ([99], [57])] := by decide

/-! ### Properties of the code-unit comparison -/

theorem cmpNat_antisym (x y : Nat) : cmpNat y x = -cmpNat x y := by
  unfold cmpNat; split_ifs <;> omega

theorem cmpNat_eq_zero_iff (x y : Nat) : cmpNat x y = 0 ↔ x = y := by
  unfold cmpNat
  split_ifs with h1 h2
  · exact iff_of_false (by norm_num) h1
  · exact iff_of_false (by norm_num) h1
  · simp at h1; simp [h1]

theorem rtcu_bmp (r : Nat) (h : r < 65536) : runeToCodeUnits r = (r, none) := by
  simp [runeToCodeUnits, h]

theorem rtcu_supp (r : Nat) (h : ¬ r < 65536) :
    runeToCodeUnits r = (55296 + (r - 65536) / 1024, some (56320 + (r - 65536) % 1024)) := by
  simp [runeToCodeUnits, h]

theorem ite_cmp_antisym (x y d e : Int) (hyx : y = -x) (hde : e = -d) :
    (if y ≠ 0 then y else e) = -(if x ≠ 0 then x else d) := by
  subst hyx; subst hde; split_ifs <;> omega

theorem cmpUnitsAt_antisym (a b : Nat) : cmpUnitsAt b a = -cmpUnitsAt a b := by
  by_cases ha : a < 65536 <;> by_cases hb : b < 65536
  · simp only [cmpUnitsAt, rtcu_bmp _ ha, rtcu_bmp _ hb]
    exact ite_cmp_antisym _ _ _ _ (cmpNat_antisym a b) (by norm_num)
  · simp only [cmpUnitsAt, rtcu_bmp _ ha, rtcu_supp _ hb]
    exact ite_cmp_antisym _ _ _ _ (cmpNat_antisym a _) (by norm_num)
  · simp only [cmpUnitsAt, rtcu_supp _ ha, rtcu_bmp _ hb]
    exact ite_cmp_antisym _ _ _ _ (cmpNat_antisym _ b) (by norm_num)
  · simp only [cmpUnitsAt, rtcu_supp _ ha, rtcu_supp _ hb]
    exact ite_cmp_antisym _ _ _ _ (cmpNat_antisym _ _) (cmpNat_antisym _ _)

theorem cmpUnitsAt_eq_zero_iff (a b : Nat) : cmpUnitsAt a b = 0 ↔ a = b := by
  by_cases ha : a < 65536 <;> by_cases hb : b < 65536
  · simp only [cmpUnitsAt, rtcu_bmp _ ha, rtcu_bmp _ hb]
    by_cases hc : cmpNat a b = 0
    · simp only [hc, ne_eq, not_true_eq_false, if_false, ite_false]
      exact iff_of_true (by simp) ((cmpNat_eq_zero_iff a b).mp hc)
    · rw [if_pos hc]
      exact iff_of_false hc (fun h => hc ((cmpNat_eq_zero_iff a b).mpr h))
  · simp only [cmpUnitsAt, rtcu_bmp _ ha, rtcu_supp _ hb]
    split_ifs with hc
    · exact iff_of_false hc (by omega)
    · exact iff_of_false (by norm_num) (by omega)
  · simp only [cmpUnitsAt, rtcu_supp _ ha, rtcu_bmp _ hb]
    split_ifs with hc
    · exact iff_of_false hc (by omega)
    · exact iff_of_false (by norm_num) (by omega)
  · simp only [cmpUnitsAt, rtcu_supp _ ha, rtcu_supp _ hb]
    by_cases h0 : cmpNat (55296 + (a - 65536) / 1024) (55296 + (b - 65536) / 1024) = 0
    · have e0 := (cmpNat_eq_zero_iff _ _).mp h0
      simp only [h0, ne_eq, not_true_eq_false, if_false, ite_false]
      by_cases h1 : cmpNat (56320 + (a - 65536) % 1024) (56320 + (b - 65536) % 1024) = 0
      · have e1 := (cmpNat_eq_zero_iff _ _).mp h1
        exact iff_of_true h1 (by omega)
      · exact iff_of_false h1 (fun h => by subst h; exact h1 ((cmpNat_eq_zero_iff _ _).mpr rfl))
    · rw [if_pos h0]
      exact iff_of_false h0 (fun h => by subst h; exact h0 ((cmpNat_eq_zero_iff _ _).mpr rfl))

theorem compareRunes_eq_zero_iff (x y : List Nat) : compareRunes x y = 0 ↔ x = y := by
  induction x generalizing y with
  | nil => cases y <;> simp [compareRunes]
  | cons a as ih =>
    cases y with
    | nil => simp [compareRunes]
    | cons b bs =>
      rw [compareRunes]
      by_cases hc : cmpUnitsAt a b = 0
      · have hab : a = b := (cmpUnitsAt_eq_zero_iff a b).mp hc
        subst hab
        simp [hc, ih bs]
      · rw [if_pos hc]
        exact iff_of_false hc
          (fun h => by injection h with h1 h2; exact hc ((cmpUnitsAt_eq_zero_iff a b).mpr h1))

theorem compareRunes_antisym (x y : List Nat) : compareRunes y x = -compareRunes x y := by
  induction x generalizing y with
  | nil => cases y <;> simp [compareRunes]
  | cons a as ih =>
    cases y with
    | nil => simp [compareRunes]
    | cons b bs =>
      rw [compareRunes, compareRunes]
      exact ite_cmp_antisym _ _ _ _ (cmpUnitsAt_antisym a b) (ih bs)

theorem compareByCodeUnits_self (a : ByteStr) : compareByCodeUnits a a = 0 :=
  (compareRunes_eq_zero_iff _ _).mpr rfl

theorem compareByCodeUnits_antisym (a b : ByteStr) :
    compareByCodeUnits b a = -compareByCodeUnits a b :=
  compareRunes_antisym _ _

theorem sortLess_false_of_key_eq (p q : Param) (h : p.1 = q.1) :
    sortLess p q = false := by
  simp [sortLess, h, compareByCodeUnits_self]

theorem le_of_not_sortLess (p q : Param) (h : ¬ sortLess q p = true) :
    compareByCodeUnits p.1 q.1 ≤ 0 := by
  simp only [sortLess, decide_eq_true_eq] at h
  rw [compareByCodeUnits_antisym p.1 q.1] at h
  omega

theorem le_of_sortLess (p q : Param) (h : sortLess p q = true) :
    compareByCodeUnits p.1 q.1 ≤ 0 := by
  simp only [sortLess, decide_eq_true_eq] at h
  omega

/-! ### The stable sort: permutation, sortedness, stability -/

theorem insertStable_perm (lt : Param → Param → Bool) (x : Param) (l : List Param) :
    (insertStable lt x l).Perm (x :: l) := by
  induction l with
  | nil => exact List.Perm.refl _
  | cons y ys ih =>
    rw [insertStable]
    by_cases h : lt y x
    · rw [if_pos h]
      exact (ih.cons y).trans (List.Perm.swap x y ys)
    · rw [if_neg h]

theorem sortStable_perm (lt : Param → Param → Bool) (l : List Param) :
    (sortStable lt l).Perm l := by
  induction l with
  | nil => exact List.Perm.refl _
  | cons x xs ih =>
    exact (insertStable_perm lt x (sortStable lt xs)).trans (ih.cons x)

theorem insertStable_chain (x : Param) (l : List Param)
    (hl : List.Chain' (fun p q => compareByCodeUnits p.1 q.1 ≤ 0) l) :
    List.Chain' (fun p q => compareByCodeUnits p.1 q.1 ≤ 0) (insertStable sortLess x l) := by
  induction l with
  | nil => simp [insertStable]
  | cons y ys ih =>
    rw [insertStable]
    by_cases h : sortLess y x
    · rw [if_pos h]
      rw [List.chain'_cons'] at hl ⊢
      refine ⟨?_, ih hl.2⟩
      intro z hz
      cases ys with
      | nil =>
        simp [insertStable] at hz
        subst hz
        exact le_of_sortLess y x h
      | cons w ws =>
        rw [insertStable] at hz
        by_cases hw : sortLess w x
        · rw [if_pos hw] at hz
          simp at hz
          subst hz
          exact hl.1 w (by simp)
        · rw [if_neg hw] at hz
          simp at hz
          subst hz
          exact le_of_sortLess y x h
    · rw [if_neg h]
      rw [List.chain'_cons]
      exact ⟨le_of_not_sortLess x y h, hl⟩

theorem sortStable_chain (l : List Param) :
    List.Chain' (fun p q => compareByCodeUnits p.1 q.1 ≤ 0) (sortParams l) := by
  induction l with
  | nil => simp [sortParams, sortStable]
  | cons x xs ih => exact insertStable_chain x _ ih

theorem filter_insertStable (x : Param) (l : List Param) (k : ByteStr) :
    (insertStable sortLess x l).filter (fun p => p.1 = k) =
      if x.1 = k then x :: l.filter (fun p => p.1 = k)
      else l.filter (fun p => p.1 = k) := by
  induction l with
  | nil =>
    simp only [insertStable, List.filter]
    by_cases hx : x.1 = k <;> simp [hx]
  | cons y ys ih =>
    rw [insertStable]
    by_cases h : sortLess y x
    · rw [if_pos h]
      by_cases hx : x.1 = k
      · have hy : y.1 ≠ k := by
          intro hy
          have : sortLess y x = false := sortLess_false_of_key_eq y x (by rw [hy, hx])
          rw [this] at h
          exact Bool.false_ne_true h
        rw [if_pos hx]
        rw [List.filter_cons_of_neg (by simp [hy]), ih, if_pos hx,
          List.filter_cons_of_neg (by simp [hy])]
      · rw [if_neg hx]
        by_cases hy : y.1 = k
        · rw [List.filter_cons_of_pos (by simp [hy]), ih, if_neg hx,
            List.filter_cons_of_pos (by simp [hy])]
        · rw [List.filter_cons_of_neg (by simp [hy]), ih, if_neg hx,
            List.filter_cons_of_neg (by simp [hy])]
    · rw [if_neg h]
      by_cases hx : x.1 = k
      · rw [if_pos hx, List.filter_cons_of_pos (by simp [hx])]
      · rw [if_neg hx, List.filter_cons_of_neg (by simp [hx])]

theorem sortStable_filter (l : List Param) (k : ByteStr) :
    (sortParams l).filter (fun p => p.1 = k) = l.filter (fun p => p.1 = k) := by
  induction l with
  | nil => rfl
  | cons x xs ih =>
    show (insertStable sortLess x (sortStable sortLess xs)).filter _ = _
    rw [filter_insertStable]
    by_cases hx : x.1 = k
    · rw [if_pos hx, List.filter_cons_of_pos (by simp [hx])]
      exact congrArg (x :: ·) ih
    · rw [if_neg hx, List.filter_cons_of_neg (by simp [hx])]
      exact ih

theorem insertStable_map (f : Param → ByteStr) (x : Param) (l : List Param) :
    insertStable sortLess (x.1, f x) (l.map fun p => (p.1, f p)) =
      (insertStable sortLess x l).map fun p => (p.1, f p) := by
  induction l with
  | nil => rfl
  | cons y ys ih =>
    rw [List.map_cons, insertStable, insertStable]
    have hless : sortLess (y.1, f y) (x.1, f x) = sortLess y x := rfl
    rw [hless]
    by_cases h : sortLess y x
    · rw [if_pos h, if_pos h, ih, List.map_cons]
    · rw [if_neg h, if_neg h, List.map_cons, List.map_cons]

theorem sortStable_map (f : Param → ByteStr) (l : List Param) :
    sortParams (l.map fun p => (p.1, f p)) = (sortParams l).map fun p => (p.1, f p) := by
  induction l with
  | nil => rfl
  | cons x xs ih =>
    show insertStable sortLess (x.1, f x) (sortStable sortLess (xs.map _)) = _
    rw [show sortStable sortLess (xs.map fun p => (p.1, f p)) =
        sortParams (xs.map fun p => (p.1, f p)) from rfl, ih]
    exact insertStable_map f x (sortParams xs)

/-! ### Behavior of `Set` -/

theorem setLoop_true_filter (key value : ByteStr) (l : List Param) :
    setLoop key value true l = l.filter (fun p => p.1 ≠ key) := by
  induction l with
  | nil => rfl
  | cons p ps ih =>
    rw [setLoop]
    by_cases h : p.1 = key
    · rw [if_pos h, if_pos rfl, ih, List.filter_cons_of_neg (by simp [h])]
    · rw [if_neg h, ih, List.filter_cons_of_pos (by simp [h])]

theorem setLoop_false_not_mem (key value : ByteStr) (l : List Param)
    (h : key ∉ l.map Prod.fst) : setLoop key value false l = l ++ [(key, value)] := by
  induction l with
  | nil => rfl
  | cons p ps ih =>
    have hp : p.1 ≠ key := by
      intro he; exact h (by simp [← he])
    rw [setLoop, if_neg hp, ih (fun hm => h (by simp at hm ⊢; tauto)), List.cons_append]

theorem setParam_first_occurrence (key value v₀ : ByteStr) (l₁ l₂ : List Param)
    (h : key ∉ l₁.map Prod.fst) :
    setParam key value (l₁ ++ (key, v₀) :: l₂) =
      l₁ ++ (key, value) :: l₂.filter (fun p => p.1 ≠ key) := by
  induction l₁ with
  | nil =>
    show setLoop key value false ((key, v₀) :: l₂) = _
    rw [setLoop, if_pos rfl]
    show (key, value) :: setLoop key value true l₂ = _
    rw [setLoop_true_filter, List.nil_append]
  | cons p ps ih =>
    have hp : p.1 ≠ key := by
      intro he; exact h (by simp [← he])
    show setLoop key value false ((p :: ps) ++ (key, v₀) :: l₂) = _
    rw [List.cons_append, setLoop, if_neg hp,
      show setLoop key value false (ps ++ (key, v₀) :: l₂) =
        setParam key value (ps ++ (key, v₀) :: l₂) from rfl,
      ih (fun hm => h (by simp at hm ⊢; tauto)), List.cons_append]

/-! ## Claim theorems -/

/-- C3: `parseFormEncoded` splits its input on `&`, skips empty segments,
splits each remaining segment at its first `=` (a segment without `=`
becomes a pair of the segment and the empty value), replaces `+` with
space before percent-decoding, and percent-decodes key and value
independently, in segment order.  The first conjunct pins down `splitSep`
as the inverse of joining on `&`; the second shows the parser is exactly
the skip-empty/`parseSeg` pipeline over that split. -/
theorem parseFormEncoded_spec :
    (∀ s : ByteStr, joinSep 38 (splitSep 38 s) = s) ∧
    (∀ s : ByteStr,
       parseFormEncoded s =
         ((splitSep 38 s).filter (fun seg => seg ≠ [])).map parseSeg) ∧
    (∀ seg : ByteStr,
       parseSeg seg =
         match cutFirst 61 seg with
         | some (k, v) => (percentDecode (plusToSpace k), percentDecode (plusToSpace v))
         | none => (percentDecode (plusToSpace seg), percentDecode (plusToSpace []))) := by
  refine ⟨joinSep_splitSep 38, ?_, ?_⟩
  · intro s
    by_cases hs : s = []
    · subst hs; rfl
    · rw [parseFormEncoded, if_neg hs, parseSegs_filter_map]
  · intro seg
    unfold parseSeg
    cases cutFirst 61 seg with
    | none => rfl
    | some kv => rfl

/-- C4: `percentDecode` scans byte-wise; `%` followed by two valid hex
digits decodes to the byte those digits denote; a `%` not followed by two
valid hex digits (invalid digits or fewer than two bytes remaining) is
copied unchanged, as is every non-`%` byte. -/
theorem percentDecode_spec :
    percentDecode [] = [] ∧
    (∀ (b : Nat) (bs : ByteStr), b ≠ 37 →
       percentDecode (b :: bs) = b :: percentDecode bs) ∧
    (∀ (h l : Nat) (rest : ByteStr), isHexDigit h → isHexDigit l →
       percentDecode (37 :: h :: l :: rest) =
         (16 * hexVal h + hexVal l) :: percentDecode rest) ∧
    (∀ bs : ByteStr,
       (∀ (h l : Nat) (rest : ByteStr), bs = h :: l :: rest → ¬(isHexDigit h ∧ isHexDigit l)) →
       percentDecode (37 :: bs) = 37 :: percentDecode bs) := by
  refine ⟨rfl, percentDecode_cons, ?_, ?_⟩
  · intro h l rest hh hl
    rw [percentDecode_escape h l rest hh hl, unhex_toNat h hh, unhex_toNat l hl,
      shiftLeft_or_eq (hexVal h) (hexVal l) (hexVal_lt h hh) (hexVal_lt l hl)]
  · intro bs hinv
    match bs with
    | [] => rfl
    | [x] => rfl
    | h :: l :: rest => exact percentDecode_escape_invalid h l rest (hinv h l rest rfl)

/-- C4 witness: the valid escape `%25` decodes to byte 37, and an invalid
escape `%2X`-like tail is copied unchanged. -/
theorem percentDecode_spec_witness :
    percentDecode (37 :: 50 :: 53 :: []) = (16 * hexVal 50 + hexVal 53) :: percentDecode [] ∧
    percentDecode (37 :: (50 :: 120 :: [])) = 37 :: percentDecode (50 :: 120 :: []) :=
  ⟨percentDecode_spec.2.2.1 50 53 [] (by decide) (by decide),
   percentDecode_spec.2.2.2 (50 :: 120 :: [])
     (by intro h l rest he; injection he with h1 h2; injection h2 with h3 h4
         subst h1; subst h3; subst h4; decide)⟩

set_option maxRecDepth 4096 in
/-- C5: `formEncode` maps each byte independently: space becomes `+`,
bytes in `{*, -, ., _, 0-9, A-Z, a-z}` are copied, every other byte
becomes `%` followed by exactly two upper-case hex digits encoding its
value. -/
theorem formEncode_spec :
    (∀ s : ByteStr,
       formEncode s = s.flatMap fun b =>
         if b = 32 then [43]
         else if isLiteralByte b then [b]
         else [37, hexDigit (b >>> 4), hexDigit (b &&& 15)]) ∧
    (∀ b : Nat, b < 256 → b ≠ 32 → ¬ isLiteralByte b →
       isUpperHexDigit (hexDigit (b >>> 4)) ∧ isUpperHexDigit (hexDigit (b &&& 15)) ∧
       16 * hexVal (hexDigit (b >>> 4)) + hexVal (hexDigit (b &&& 15)) = b) := by
  constructor
  · intro s
    rw [formEncode_eq_flatMap]
    rfl
  · intro b hb _ _
    have h1 := hexDigit_val (b >>> 4) (shiftRight_four_lt b hb)
    have h2 := hexDigit_val (b &&& 15) (and_fifteen_lt b)
    refine ⟨h1.1, h2.1, ?_⟩
    rw [h1.2, h2.2]
    revert hb
    have : ∀ b < 256, 16 * (b >>> 4) + (b &&& 15) = b := by decide
    exact this b

/-- C5 witness: byte 255 (not a literal byte) is escaped as two
upper-case hex digits recombining to 255. -/
theorem formEncode_spec_witness :
    isUpperHexDigit (hexDigit (255 >>> 4)) ∧ isUpperHexDigit (hexDigit (255 &&& 15)) ∧
    16 * hexVal (hexDigit (255 >>> 4)) + hexVal (hexDigit (255 &&& 15)) = 255 :=
  formEncode_spec.2 255 (by decide) (by decide) (by decide)

/-- C6: `Sort` permutes the pairs into non-decreasing key order under the
UTF-16 code-unit comparison, is stable (pairs with equal keys keep their
relative order: the per-key filter of the result equals that of the
input), and values never influence the order (rewriting values commutes
with sorting). -/
theorem sort_spec (l : List Param) :
    (sortParams l).Perm l ∧
    List.Chain' (fun p q => compareByCodeUnits p.1 q.1 ≤ 0) (sortParams l) ∧
    (∀ k : ByteStr,
       (sortParams l).filter (fun p => p.1 = k) = l.filter (fun p => p.1 = k)) ∧
    (∀ f : Param → ByteStr,
       sortParams (l.map fun p => (p.1, f p)) = (sortParams l).map fun p => (p.1, f p)) :=
  ⟨sortStable_perm sortLess l, sortStable_chain l, sortStable_filter l,
   fun f => sortStable_map f l⟩

/-- C7: when a pair with the key exists, `Set` updates the first
occurrence in place and drops every later occurrence of the key, keeping
all other pairs in order; when no pair with the key exists, `Set`
appends the new pair at the end. -/
theorem set_spec (key value : ByteStr) :
    (∀ l : List Param, key ∉ l.map Prod.fst →
       setParam key value l = l ++ [(key, value)]) ∧
    (∀ (l₁ l₂ : List Param) (v₀ : ByteStr), key ∉ l₁.map Prod.fst →
       setParam key value (l₁ ++ (key, v₀) :: l₂) =
         l₁ ++ (key, value) :: l₂.filter (fun p => p.1 ≠ key)) :=
  ⟨fun l h => setLoop_false_not_mem key value l h,
   fun l₁ l₂ v₀ h => setParam_first_occurrence key value v₀ l₁ l₂ h⟩

/-- C7 witness: `Set("a","9")` on `b=0, a=1, c=2, a=3` updates the first
`a` in place and drops the later one. -/
theorem set_spec_witness :
    setParam [97] [57] ([([98], [48])] ++ ([97], [49]) :: [([99], [50]), ([97], [51])]) =
      [([98], [48])] ++ ([97], [57]) ::
        ([([99], [50]), ([97], [51])].filter (fun p => p.1 ≠ [97])) :=
  (set_spec [97] [57]).2 [([98], [48])] [([99], [50]), ([97], [51])] [49] (by decide)

/-- C10: parsing the form-encoded serialization of any list of pairs of
Go strings (byte strings) recovers exactly the original list, including
pairs with empty keys or empty values. -/
theorem encode_parse_roundtrip (entries : List Param)
    (h : ∀ p ∈ entries, ValidBytes p.1 ∧ ValidBytes p.2) :
    parseFormEncoded (encodeFormEncoded entries) = entries := by
  cases entries with
  | nil => rfl
  | cons e rest =>
    unfold encodeFormEncoded
    rw [if_neg (by simp)]
    have hparts_ne :
        ((e :: rest).map fun p => formEncode p.1 ++ 61 :: formEncode p.2) ≠ [] := by simp
    have hpart_ne :
        ∀ p ∈ (e :: rest).map (fun p => formEncode p.1 ++ 61 :: formEncode p.2), p ≠ [] := by
      intro p hp
      simp only [List.mem_map] at hp
      obtain ⟨q, _, rfl⟩ := hp
      simp
    have hno38 :
        ∀ p ∈ (e :: rest).map (fun p => formEncode p.1 ++ 61 :: formEncode p.2),
          (38 : Nat) ∉ p := by
      intro p hp
      simp only [List.mem_map] at hp
      obtain ⟨q, _, rfl⟩ := hp
      intro hmem
      rw [List.mem_append, List.mem_cons] at hmem
      rcases hmem with hk | h61 | hv
      · exact (formEncode_ne q.1 38 hk).1 rfl
      · omega
      · exact (formEncode_ne q.2 38 hv).1 rfl
    unfold parseFormEncoded
    rw [if_neg (joinSep_ne_nil 38 _ hparts_ne hpart_ne),
      splitSep_joinSep 38 _ hparts_ne hno38, parseSegs_map_encode _ h]

/-- C10 witness: the round trip at a list containing an empty key, an
empty value, and a non-ASCII byte. -/
theorem encode_parse_roundtrip_witness :
    parseFormEncoded (encodeFormEncoded [([], []), ([32, 255], [61, 38])]) =
      [([], []), ([32, 255], [61, 38])] :=
  encode_parse_roundtrip [([], []), ([32, 255], [61, 38])] (by decide)

/-! ## The URL record and the generic resolution primitive

`url.go` builds on Go's `net/url` package, which is not part of this
repository; the spec (§6) treats it as an external collaborator whose
internal grammar is deliberately unspecified.  The definitions below are
therefore modelled from the spec: a structured breakdown into scheme /
userinfo / host / path / raw query / fragment, a parse that fails on
malformed input (control bytes, a lone `:` prefix, a colon in the first
path segment of a schemeless relative reference), standard
relative-reference resolution with dot-segment removal, and the inverse
serialization.  Percent-escape validation and port validation of
`net/url` are not modelled (the spec allows the primitive to be looser). -/

/-- Modelled from the spec: the structured breakdown produced by the
generic absolute-URL resolution primitive (Go's `net/url.URL`).  `opaq`
is the opaque part of non-hierarchical URLs (`mailto:a@b`); `user` is
the raw userinfo (possibly containing `:`); the port lives inside
`host`. -/
structure GoURL where
  scheme : ByteStr
  opaq : ByteStr
  user : Option ByteStr
  host : ByteStr
  path : ByteStr
  forceQuery : Bool
  rawQuery : ByteStr
  fragment : ByteStr
deriving DecidableEq

/-- `IsAbs` of the primitive: the scheme is non-empty. -/
def GoURL.isAbs (u : GoURL) : Prop := u.scheme ≠ []

instance (u : GoURL) : Decidable u.isAbs := by unfold GoURL.isAbs; infer_instance

/-- An ASCII control byte (rejected by the resolution primitive). -/
def isCtl (b : Nat) : Bool := b < 32 || b == 127

/-- An ASCII letter. -/
def isAlphaByte (b : Nat) : Bool := (65 ≤ b && b ≤ 90) || (97 ≤ b && b ≤ 122)

/-- A byte allowed in a scheme name after the first letter. -/
def isSchemeByte (b : Nat) : Bool :=
  isAlphaByte b || (48 ≤ b && b ≤ 57) || b == 43 || b == 45 || b == 46

/-- A valid scheme name: a letter followed by scheme bytes. -/
def validSchemeName (s : ByteStr) : Bool :=
  match s with
  | [] => false
  | c :: _ => isAlphaByte c && s.all isSchemeByte

/-- ASCII lower-casing of one byte. -/
def lowerByte (b : Nat) : Nat := if 65 ≤ b ∧ b ≤ 90 then b + 32 else b

/-- ASCII lower-casing of a byte string (`strings.ToLower` on schemes). -/
def lowerAscii (s : ByteStr) : ByteStr := s.map lowerByte

/-- Modelled from the spec: scheme extraction of the resolution
primitive.  The prefix before the first `:` is the scheme when it is a
valid scheme name (then lower-cased); a leading `:` is an error; any
other prefix means the reference has no scheme. -/
def getScheme (s : ByteStr) : Option (ByteStr × ByteStr) :=
  match cutFirst 58 s with
  | none => some ([], s)
  | some (pre, post) =>
    if pre = [] then none
    else if validSchemeName pre then some (lowerAscii pre, post)
    else some ([], s)

/-- Query extraction: a single trailing `?` sets the force-query flag
with an empty raw query; otherwise the raw query is everything after the
first `?`. -/
def splitQuery (rest : ByteStr) : ByteStr × ByteStr × Bool :=
  match cutFirst 63 rest with
  | none => (rest, [], false)
  | some (before, after) =>
    if after = [] then (before, [], true) else (before, after, false)

/-- Cut at the last occurrence of `sep`. -/
def cutLast (sep : Nat) (s : ByteStr) : Option (ByteStr × ByteStr) :=
  match cutFirst sep s.reverse with
  | none => none
  | some (a, b) => some (b.reverse, a.reverse)

/-- Split the part after `//` into the authority (up to the first `/`)
and the remaining path (keeping its leading `/`). -/
def splitAuthority (t : ByteStr) : ByteStr × ByteStr :=
  match cutFirst 47 t with
  | none => (t, [])
  | some (a, b) => (a, 47 :: b)

/-- Split an authority into optional raw userinfo (before the last `@`)
and host. -/
def parseAuthority (auth : ByteStr) : Option ByteStr × ByteStr :=
  match cutLast 64 auth with
  | none => (none, auth)
  | some (ui, host) => (some ui, host)

/-- The first path segment (up to the first `/`). -/
def firstSegment (s : ByteStr) : ByteStr :=
  match cutFirst 47 s with
  | none => s
  | some (a, _) => a

/-- The stage of the parse after the fragment, scheme, and query have
been cut: a non-`/` remainder with a scheme is opaque; `//` starts an
authority; a schemeless relative reference whose first segment contains
`:` is rejected; anything else is the path. -/
def parseAfterSplits (scheme rest rawQ : ByteStr) (fq : Bool) (frag : ByteStr) :
    Option GoURL :=
  if rest.head? ≠ some 47 then
    if scheme ≠ [] then
      some ⟨scheme, rest, none, [], [], fq, rawQ, frag⟩
    else if 58 ∈ firstSegment rest then none
    else some ⟨scheme, [], none, [], rest, fq, rawQ, frag⟩
  else if rest.take 2 = [47, 47] ∧ (scheme ≠ [] ∨ rest.take 3 ≠ [47, 47, 47]) then
    let ar := splitAuthority (rest.drop 2)
    let uh := parseAuthority ar.1
    some ⟨scheme, [], uh.1, uh.2, ar.2, fq, rawQ, frag⟩
  else
    some ⟨scheme, [], none, [], rest, fq, rawQ, frag⟩

/-- Modelled from the spec: the parse of the generic resolution
primitive.  Rejects control bytes; cuts the fragment at the first `#`,
then the scheme, then the query, and hands over to
`parseAfterSplits`. -/
def goParse (s : ByteStr) : Option GoURL :=
  if s.any isCtl then none
  else
    let fsplit : ByteStr × ByteStr :=
      match cutFirst 35 s with
      | none => (s, [])
      | some ab => ab
    match getScheme fsplit.1 with
    | none => none
    | some schemeRest =>
      let qsplit := splitQuery schemeRest.2
      parseAfterSplits schemeRest.1 qsplit.1 qsplit.2.1 qsplit.2.2 fsplit.2

/-- The prefix of `b` up to and including its last `/` (empty when there
is no `/`). -/
def upToLastSlash (b : ByteStr) : ByteStr :=
  (b.reverse.dropWhile (fun c => c ≠ 47)).reverse

/-- Dot-segment removal over a segment list (`.` dropped, `..` pops). -/
def segsProcess (acc : List ByteStr) : List ByteStr → List ByteStr
  | [] => acc
  | seg :: rest =>
    if seg = [46] then segsProcess acc rest
    else if seg = [46, 46] then segsProcess acc.dropLast rest
    else segsProcess (acc ++ [seg]) rest

/-- Modelled from the spec: standard relative-reference path merging
with dot-segment removal; the result is empty or absolute, with a
trailing slash for directory-like references. -/
def resolvePath (base ref : ByteStr) : ByteStr :=
  let full :=
    if ref = [] then base
    else if ref.head? = some 47 then ref
    else upToLastSlash base ++ ref
  if full = [] then []
  else
    let segs := (splitSep 47 full).filter (fun s => s ≠ [])
    let out := segsProcess [] segs
    let trailing : Bool :=
      match (splitSep 47 full).getLast? with
      | some last => last == [] || last == [46] || last == [46, 46]
      | none => false
    47 :: (joinSep 47 out ++ (if trailing ∧ out ≠ [] then [47] else []))

/-- Modelled from the spec: standard relative-reference resolution of
the primitive (`ResolveReference`): an absolute reference wins outright;
otherwise authority and path (and, for an empty path without query, the
query and fragment) are inherited from the base. -/
def resolveReference (base ref : GoURL) : GoURL :=
  if ref.scheme ≠ [] ∨ ref.host ≠ [] ∨ ref.user ≠ none then
    { ref with
      scheme := if ref.scheme = [] then base.scheme else ref.scheme
      path := resolvePath ref.path [] }
  else if ref.opaq ≠ [] then
    { ref with
      scheme := if ref.scheme = [] then base.scheme else ref.scheme
      user := none
      host := []
      path := [] }
  else if ref.path = [] ∧ ref.forceQuery = false ∧ ref.rawQuery = [] then
    { ref with
      scheme := if ref.scheme = [] then base.scheme else ref.scheme
      user := base.user
      host := base.host
      path := resolvePath base.path ref.path
      rawQuery := base.rawQuery
      fragment := if ref.fragment = [] then base.fragment else ref.fragment }
  else
    { ref with
      scheme := if ref.scheme = [] then base.scheme else ref.scheme
      user := base.user
      host := base.host
      path := resolvePath base.path ref.path }

/-- The authority part of the serialization (`//` + userinfo + host when
present or needed). -/
def authPart (u : GoURL) : ByteStr :=
  if u.scheme ≠ [] ∨ u.host ≠ [] ∨ u.user ≠ none then
    (if u.host ≠ [] ∨ u.path ≠ [] ∨ u.user ≠ none then [47, 47] else []) ++
    (match u.user with
     | some ui => ui ++ [64]
     | none => []) ++ u.host
  else []

/-- The scheme-less, query-less part of the serialization: the opaque
part, or authority plus path (with a separating `/` inserted when a
rootless path follows a host). -/
def bodyOf (u : GoURL) : ByteStr :=
  if u.opaq ≠ [] then u.opaq
  else
    authPart u ++
    (if u.path ≠ [] ∧ u.path.head? ≠ some 47 ∧ u.host ≠ [] then [47] else []) ++
    u.path

/-- Modelled from the spec: the serialization of the primitive
(`URL.String`): scheme, opaque part or authority and path, `?` + raw
query (also for a bare force-query), `#` + fragment. -/
def urlString (u : GoURL) : ByteStr :=
  (if u.scheme ≠ [] then u.scheme ++ [58] else []) ++ bodyOf u ++
  (if u.forceQuery = true ∨ u.rawQuery ≠ [] then 63 :: u.rawQuery else []) ++
  (if u.fragment ≠ [] then 35 :: u.fragment else [])

/-! ## The `URL` type of `url.go` and its operations

A Go `*URL` owns an `inner` record and a `*URLSearchParams`.  Pointer
identity of the collection is modelled by an allocation token `spId`:
constructors receive a fresh token, while in-place mutation (as done by
`updateSearchParams` / `ensureSearchParams` on an existing collection)
keeps the token. -/

/-- The `URL` struct of `url.go`: the parsed inner record plus the
attached `URLSearchParams` (identity token and entry list; the owner
back-reference is implicit — the collection's owner is this URL). -/
structure URL where
  inner : GoURL
  spId : Nat
  spEntries : List Param
deriving DecidableEq

/-- The error-checking part of `NewURL` up to the resolved record:
a non-empty base must parse and be absolute, then the input must parse
and is resolved against it; without a base the input must parse and be
absolute itself. -/
def resolveInput (input base : ByteStr) : Option GoURL :=
  if base ≠ [] then
    match goParse base with
    | none => none
    | some baseURL =>
      if ¬ baseURL.isAbs then none
      else
        match goParse input with
        | none => none
        | some ref => some (resolveReference baseURL ref)
  else
    match goParse input with
    | none => none
    | some parsed => if ¬ parsed.isAbs then none else some parsed

/-- `NewURL` from `url.go`: resolve, reject an empty scheme, then attach
the search-params collection via `initSearchParams` (a fresh collection
initialized from the raw query). -/
def newURL (input base : ByteStr) (fresh : Nat) : Option URL :=
  match resolveInput input base with
  | none => none
  | some parsed =>
    if parsed.scheme = [] then none
    else some ⟨parsed, fresh, parseFormEncoded parsed.rawQuery⟩

/-- `SetHref` from `url.go`: re-parse, require absoluteness, replace the
inner record, and update the existing collection in place
(`updateSearchParams` clears and repopulates the same object). -/
def setHref (u : URL) (href : ByteStr) : Option URL :=
  match goParse href with
  | none => none
  | some parsed =>
    if ¬ parsed.isAbs then none
    else some ⟨parsed, u.spId, parseFormEncoded parsed.rawQuery⟩

/-- `SetSearch` from `url.go`: strip a leading `?`, overwrite the raw
query (clearing the force-query flag when it becomes empty), and update
the existing collection in place. -/
def setSearch (u : URL) (search : ByteStr) : URL :=
  let stripped := if search.head? = some 63 then search.tail else search
  ⟨{ u.inner with
      rawQuery := stripped
      forceQuery := if stripped = [] then false else u.inner.forceQuery },
   u.spId, parseFormEncoded stripped⟩

/-- `syncFromSearchParams` from `url.go`: serialize the collection into
the owner's raw query (clearing the force-query flag when empty). -/
def syncFromSearchParams (u : URL) : URL :=
  let serialized := encodeFormEncoded u.spEntries
  ⟨{ u.inner with
      rawQuery := serialized
      forceQuery := if serialized = [] then false else u.inner.forceQuery },
   u.spId, u.spEntries⟩

/-- `Append` on the owned collection followed by `syncOwner`. -/
def urlAppend (u : URL) (k v : ByteStr) : URL :=
  syncFromSearchParams ⟨u.inner, u.spId, appendParam k v u.spEntries⟩

/-- `Delete` on the owned collection followed by `syncOwner`. -/
def urlDelete (u : URL) (k : ByteStr) (v : Option ByteStr) : URL :=
  syncFromSearchParams ⟨u.inner, u.spId, deleteParam k v u.spEntries⟩

/-- `Set` on the owned collection followed by `syncOwner`. -/
def urlSet (u : URL) (k v : ByteStr) : URL :=
  syncFromSearchParams ⟨u.inner, u.spId, setParam k v u.spEntries⟩

/-- `Sort` on the owned collection followed by `syncOwner`. -/
def urlSort (u : URL) : URL :=
  syncFromSearchParams ⟨u.inner, u.spId, sortParams u.spEntries⟩

/-- A public mutating operation on a URL and its owned collection. -/
inductive UrlOp where
  | opAppend (k v : ByteStr)
  | opDelete (k : ByteStr) (v : Option ByteStr)
  | opSet (k v : ByteStr)
  | opSort
  | opSetSearch (s : ByteStr)
  | opSetHref (href : ByteStr)

/-- Apply one public operation (a failing `SetHref` leaves the URL
unchanged). -/
def applyOp (u : URL) : UrlOp → URL
  | .opAppend k v => urlAppend u k v
  | .opDelete k v => urlDelete u k v
  | .opSet k v => urlSet u k v
  | .opSort => urlSort u
  | .opSetSearch s => setSearch u s
  | .opSetHref href =>
    match setHref u href with
    | none => u
    | some u' => u'

/-- Run a sequence of public operations. -/
def run (u : URL) : List UrlOp → URL
  | [] => u
  | op :: ops => run (applyOp u op) ops

-- Parsing "http://h?a" yields raw query "a" whose collection serializes
-- back to "a=", not "a".
example :
    (newURL [104, 116, 116, 112, 58, 47, 47, 104, 63, 97] [] 0).map
      (fun u => (u.inner.rawQuery, u.spEntries, encodeFormEncoded u.spEntries)) =
    some ([97], [([97], [])], [97, 61]) := by decide

/-! ### Unfolding equations for the `Option` matches -/

theorem resolveInput_nil_none (input : ByteStr) (h : goParse input = none) :
    resolveInput input [] = none := by
  unfold resolveInput; rw [if_neg (by simp), h]

theorem resolveInput_nil_some (input : ByteStr) (p : GoURL) (h : goParse input = some p) :
    resolveInput input [] = if ¬ p.isAbs then none else some p := by
  unfold resolveInput; rw [if_neg (by simp), h]

theorem resolveInput_base_none (input base : ByteStr) (hb : base ≠ [])
    (h : goParse base = none) : resolveInput input base = none := by
  unfold resolveInput; rw [if_pos hb, h]

theorem resolveInput_base_notAbs (input base : ByteStr) (b : GoURL) (hb : base ≠ [])
    (h : goParse base = some b) (habs : ¬ b.isAbs) : resolveInput input base = none := by
  unfold resolveInput; rw [if_pos hb, h]; exact if_pos habs

theorem resolveInput_base_input_none (input base : ByteStr) (b : GoURL) (hb : base ≠ [])
    (h : goParse base = some b) (habs : b.isAbs) (hi : goParse input = none) :
    resolveInput input base = none := by
  unfold resolveInput
  rw [if_pos hb, h]
  show (if ¬ b.isAbs then none
        else match goParse input with
             | none => none
             | some ref => some (resolveReference b ref)) = none
  rw [if_neg (by simp [habs]), hi]

theorem resolveInput_base_input_some (input base : ByteStr) (b ref : GoURL)
    (hb : base ≠ []) (h : goParse base = some b) (habs : b.isAbs)
    (hi : goParse input = some ref) :
    resolveInput input base = some (resolveReference b ref) := by
  unfold resolveInput
  rw [if_pos hb, h]
  show (if ¬ b.isAbs then none
        else match goParse input with
             | none => none
             | some r => some (resolveReference b r)) = some (resolveReference b ref)
  rw [if_neg (by simp [habs]), hi]

theorem newURL_eq_none (input base : ByteStr) (fresh : Nat)
    (h : resolveInput input base = none) : newURL input base fresh = none := by
  unfold newURL; rw [h]

theorem newURL_eq_some (input base : ByteStr) (fresh : Nat) (parsed : GoURL)
    (h : resolveInput input base = some parsed) :
    newURL input base fresh =
      if parsed.scheme = [] then none
      else some ⟨parsed, fresh, parseFormEncoded parsed.rawQuery⟩ := by
  unfold newURL; rw [h]

theorem setHref_eq_none (u : URL) (href : ByteStr) (h : goParse href = none) :
    setHref u href = none := by
  unfold setHref; rw [h]

theorem setHref_eq_some (u : URL) (href : ByteStr) (parsed : GoURL)
    (h : goParse href = some parsed) :
    setHref u href =
      if ¬ parsed.isAbs then none
      else some ⟨parsed, u.spId, parseFormEncoded parsed.rawQuery⟩ := by
  unfold setHref; rw [h]

theorem setHref_inv (u : URL) (href : ByteStr) (u' : URL)
    (h : setHref u href = some u') :
    u' = ⟨u'.inner, u.spId, parseFormEncoded u'.inner.rawQuery⟩ := by
  cases hg : goParse href with
  | none => rw [setHref_eq_none u href hg] at h; exact absurd h (by simp)
  | some parsed =>
    rw [setHref_eq_some u href parsed hg] at h
    by_cases habs : parsed.isAbs
    · rw [if_neg (by simp [habs])] at h
      injection h with h'
      subst h'
      rfl
    · rw [if_pos habs] at h
      exact absurd h (by simp)

theorem newURL_inv (input base : ByteStr) (fresh : Nat) (u : URL)
    (h : newURL input base fresh = some u) :
    u.inner.scheme ≠ [] ∧ u = ⟨u.inner, fresh, parseFormEncoded u.inner.rawQuery⟩ := by
  cases hr : resolveInput input base with
  | none => rw [newURL_eq_none input base fresh hr] at h; exact absurd h (by simp)
  | some parsed =>
    rw [newURL_eq_some input base fresh parsed hr] at h
    by_cases hs : parsed.scheme = []
    · rw [if_pos hs] at h; exact absurd h (by simp)
    · rw [if_neg hs] at h
      injection h with h'
      subst h'
      exact ⟨hs, rfl⟩

/-! ### Well-formedness of parsed records (for the re-parse round trip) -/

/-- No ASCII control bytes. -/
def CtlFree (s : ByteStr) : Prop := ∀ b ∈ s, isCtl b = false

/-- Safe to appear before the fragment marker: control-free and
`#`-free. -/
def Clean2 (s : ByteStr) : Prop := CtlFree s ∧ 35 ∉ s

/-- Safe to appear before the query marker as well: additionally
`?`-free. -/
def Clean3 (s : ByteStr) : Prop := Clean2 s ∧ 63 ∉ s

/-- The invariants every record produced by `goParse` (and preserved by
`resolveReference`) satisfies; they are exactly what makes the
serialization re-parse to the same record. -/
structure URLWF (u : GoURL) : Prop where
  scheme_ok : u.scheme = [] ∨
    (validSchemeName u.scheme = true ∧ lowerAscii u.scheme = u.scheme)
  opaq_ok : u.opaq ≠ [] → u.scheme ≠ [] ∧ u.opaq.head? ≠ some 47 ∧
    u.host = [] ∧ u.user = none ∧ u.path = []
  opaq_clean : Clean3 u.opaq
  user_clean : ∀ ui, u.user = some ui → Clean3 ui ∧ 47 ∉ ui
  host_clean : Clean3 u.host ∧ 47 ∉ u.host ∧ 64 ∉ u.host
  path_clean : Clean3 u.path
  path_slash : u.scheme ≠ [] → u.opaq = [] → u.path = [] ∨ u.path.head? = some 47
  query_ok : u.forceQuery = true → u.rawQuery = []
  rq_clean : Clean2 u.rawQuery
  frag_clean : CtlFree u.fragment

theorem cutLast_not_mem (sep : Nat) (s : ByteStr) (h : sep ∉ s) :
    cutLast sep s = none := by
  unfold cutLast
  rw [cutFirst_not_mem sep s.reverse (by simpa using h)]

theorem cutLast_append (sep : Nat) (x y : ByteStr) (h : sep ∉ y) :
    cutLast sep (x ++ sep :: y) = some (x, y) := by
  unfold cutLast
  rw [show (x ++ sep :: y).reverse = y.reverse ++ sep :: x.reverse by
    simp [List.reverse_append]]
  rw [cutFirst_append sep y.reverse x.reverse (by simpa using h)]
  simp

theorem cutFirst_eq_some (sep : Nat) (s a b : ByteStr)
    (h : cutFirst sep s = some (a, b)) : s = a ++ sep :: b ∧ sep ∉ a := by
  induction s generalizing a with
  | nil => exact absurd h (by simp [cutFirst])
  | cons c cs ih =>
    rw [cutFirst] at h
    by_cases hc : c = sep
    · rw [if_pos hc] at h
      injection h with h'
      injection h' with h1 h2
      subst hc; subst h1; subst h2
      simp
    · rw [if_neg hc] at h
      cases hcut : cutFirst sep cs with
      | none => rw [hcut] at h; exact absurd h (by simp)
      | some kv =>
        rw [hcut] at h
        injection h with h'
        cases kv with
        | mk k v =>
          injection h' with h1 h2
          subst h2
          obtain ⟨hs, hk⟩ := ih k hcut
          constructor
          · rw [← h1, hs]; rfl
          · rw [← h1]
            intro hm
            rcases List.mem_cons.mp hm with hm | hm
            · exact hc hm.symm
            · exact hk hm

theorem validSchemeName_bytes (s : ByteStr) (h : validSchemeName s = true)
    (b : Nat) (hb : b ∈ s) : isSchemeByte b = true := by
  unfold validSchemeName at h
  match s, hb with
  | c :: cs, hb =>
    rw [Bool.and_eq_true] at h
    exact List.all_eq_true.mp h.2 b hb

theorem isSchemeByte_facts (b : Nat) (h : isSchemeByte b = true) :
    b ≠ 58 ∧ b ≠ 35 ∧ b ≠ 63 ∧ b ≠ 47 ∧ isCtl b = false := by
  unfold isSchemeByte isAlphaByte at h
  simp only [Bool.or_eq_true, Bool.and_eq_true, decide_eq_true_eq, beq_iff_eq] at h
  have hb : ¬ b < 32 ∧ b ≠ 127 := by omega
  refine ⟨by omega, by omega, by omega, by omega, ?_⟩
  unfold isCtl
  simp [hb.1, hb.2]

theorem lowerByte_schemeByte (b : Nat) (h : isSchemeByte b = true) :
    isSchemeByte (lowerByte b) = true := by
  unfold isSchemeByte isAlphaByte at h ⊢
  unfold lowerByte
  simp only [Bool.or_eq_true, Bool.and_eq_true, decide_eq_true_eq, beq_iff_eq] at h ⊢
  split_ifs <;> omega

theorem lowerByte_idem (b : Nat) : lowerByte (lowerByte b) = lowerByte b := by
  unfold lowerByte
  by_cases h : 65 ≤ b ∧ b ≤ 90
  · rw [if_pos h, if_neg (by omega)]
  · rw [if_neg h, if_neg h]

theorem lowerAscii_idem (s : ByteStr) : lowerAscii (lowerAscii s) = lowerAscii s := by
  unfold lowerAscii
  rw [List.map_map]
  exact List.map_congr_left (fun b _ => lowerByte_idem b)

theorem validSchemeName_lower (s : ByteStr) (h : validSchemeName s = true) :
    validSchemeName (lowerAscii s) = true := by
  unfold validSchemeName at h ⊢
  match s, h with
  | c :: cs, h =>
    rw [Bool.and_eq_true] at h
    show (isAlphaByte (lowerByte c) && (lowerAscii (c :: cs)).all isSchemeByte) = true
    rw [Bool.and_eq_true]
    constructor
    · have h1 := h.1
      unfold isAlphaByte at h1
      unfold isAlphaByte lowerByte
      simp only [Bool.or_eq_true, Bool.and_eq_true, decide_eq_true_eq] at h1 ⊢
      split_ifs <;> omega
    · rw [List.all_eq_true]
      intro b hb
      unfold lowerAscii at hb
      rw [List.mem_map] at hb
      obtain ⟨a, ha, rfl⟩ := hb
      exact lowerByte_schemeByte a (List.all_eq_true.mp h.2 a ha)

/-- The scheme of a well-formed record has none of the delimiter bytes
and no control bytes. -/
theorem scheme_bytes_clean (u : GoURL) (w : URLWF u) (b : Nat) (hb : b ∈ u.scheme) :
    b ≠ 58 ∧ b ≠ 35 ∧ b ≠ 63 ∧ b ≠ 47 ∧ isCtl b = false := by
  rcases w.scheme_ok with h | ⟨hv, _⟩
  · rw [h] at hb; exact absurd hb (by simp)
  · exact isSchemeByte_facts b (validSchemeName_bytes u.scheme hv b hb)

theorem cutFirst_eq_none (sep : Nat) (s : ByteStr) (h : cutFirst sep s = none) :
    sep ∉ s := by
  induction s with
  | nil => simp
  | cons c cs ih =>
    rw [cutFirst] at h
    by_cases hc : c = sep
    · rw [if_pos hc] at h; exact absurd h (by simp)
    · rw [if_neg hc] at h
      cases hcut : cutFirst sep cs with
      | none =>
        intro hm
        rcases List.mem_cons.mp hm with hm | hm
        · exact hc hm.symm
        · exact ih hcut hm
      | some kv => rw [hcut] at h; exact absurd h (by simp)

theorem cutLast_eq_none_mem (sep : Nat) (s : ByteStr) (h : cutLast sep s = none) :
    sep ∉ s := by
  unfold cutLast at h
  cases hc : cutFirst sep s.reverse with
  | none =>
    have := cutFirst_eq_none sep s.reverse hc
    simpa using this
  | some ab => rw [hc] at h; exact absurd h (by simp)

theorem cutLast_eq_some_decomp (sep : Nat) (s x y : ByteStr)
    (h : cutLast sep s = some (x, y)) : s = x ++ sep :: y ∧ sep ∉ y := by
  unfold cutLast at h
  cases hc : cutFirst sep s.reverse with
  | none => rw [hc] at h; exact absurd h (by simp)
  | some ab =>
    obtain ⟨a, b⟩ := ab
    rw [hc] at h
    injection h with h'
    injection h' with h1 h2
    obtain ⟨hs, hna⟩ := cutFirst_eq_some sep s.reverse a b hc
    constructor
    · rw [← h1, ← h2]
      have : s = (a ++ sep :: b).reverse := by rw [← hs]; simp
      rw [this]
      simp [List.reverse_append]
    · rw [← h2]
      simpa using hna

theorem splitAuthority_facts (t : ByteStr) :
    (∀ b ∈ (splitAuthority t).1, b ∈ t) ∧ 47 ∉ (splitAuthority t).1 ∧
    (∀ b ∈ (splitAuthority t).2, b = 47 ∨ b ∈ t) ∧
    ((splitAuthority t).2 = [] ∨ (splitAuthority t).2.head? = some 47) := by
  unfold splitAuthority
  cases hc : cutFirst 47 t with
  | none => exact ⟨fun b hb => hb, cutFirst_eq_none 47 t hc, by simp, Or.inl rfl⟩
  | some ab =>
    obtain ⟨a, b⟩ := ab
    obtain ⟨ht, hna⟩ := cutFirst_eq_some 47 t a b hc
    subst ht
    refine ⟨fun x hx => by simp [hx], hna, ?_, Or.inr rfl⟩
    intro x hx
    rcases List.mem_cons.mp hx with hx | hx
    · exact Or.inl hx
    · exact Or.inr (by simp [hx])

theorem getScheme_eq_none (t : ByteStr) (h : cutFirst 58 t = none) :
    getScheme t = some ([], t) := by
  unfold getScheme; rw [h]

theorem getScheme_eq_some (t pre post : ByteStr) (h : cutFirst 58 t = some (pre, post)) :
    getScheme t =
      if pre = [] then none
      else if validSchemeName pre = true then some (lowerAscii pre, post)
      else some ([], t) := by
  unfold getScheme; rw [h]

theorem splitQuery_eq_none (t : ByteStr) (h : cutFirst 63 t = none) :
    splitQuery t = (t, [], false) := by
  unfold splitQuery; rw [h]

theorem splitQuery_eq_some (t a b : ByteStr) (h : cutFirst 63 t = some (a, b)) :
    splitQuery t = if b = [] then (a, [], true) else (a, b, false) := by
  unfold splitQuery; rw [h]

theorem getScheme_cases (t sch rest : ByteStr) (h : getScheme t = some (sch, rest)) :
    (sch = [] ∧ rest = t) ∨
    (validSchemeName sch = true ∧ lowerAscii sch = sch ∧
      ∃ pre, t = pre ++ 58 :: rest ∧ sch = lowerAscii pre) := by
  cases hc : cutFirst 58 t with
  | none =>
    rw [getScheme_eq_none t hc] at h
    injection h with h'
    injection h' with h1 h2
    exact Or.inl ⟨h1.symm, h2.symm⟩
  | some pp =>
    obtain ⟨pre, post⟩ := pp
    rw [getScheme_eq_some t pre post hc] at h
    by_cases hp : pre = []
    · rw [if_pos hp] at h; exact absurd h (by simp)
    · rw [if_neg hp] at h
      by_cases hv : validSchemeName pre = true
      · rw [if_pos hv] at h
        injection h with h'
        injection h' with h1 h2
        obtain ⟨ht, _⟩ := cutFirst_eq_some 58 t pre post hc
        refine Or.inr ⟨?_, ?_, pre, ?_, h1.symm⟩
        · rw [← h1]; exact validSchemeName_lower pre hv
        · rw [← h1]; exact lowerAscii_idem pre
        · rw [ht, h2]
      · rw [if_neg hv] at h
        injection h with h'
        injection h' with h1 h2
        exact Or.inl ⟨h1.symm, h2.symm⟩

theorem splitQuery_facts (t : ByteStr) :
    (∀ b ∈ (splitQuery t).1, b ∈ t) ∧ (∀ b ∈ (splitQuery t).2.1, b ∈ t) ∧
    63 ∉ (splitQuery t).1 ∧ ((splitQuery t).2.2 = true → (splitQuery t).2.1 = []) := by
  cases hc : cutFirst 63 t with
  | none =>
    rw [splitQuery_eq_none t hc]
    exact ⟨fun b hb => hb, by simp, cutFirst_eq_none 63 t hc, by simp⟩
  | some ab =>
    obtain ⟨a, b⟩ := ab
    obtain ⟨ht, hna⟩ := cutFirst_eq_some 63 t a b hc
    rw [splitQuery_eq_some t a b hc, ht]
    by_cases hb : b = []
    · rw [if_pos hb]
      exact ⟨fun x hx => by simp [hx], by simp, hna, fun _ => rfl⟩
    · rw [if_neg hb]
      exact ⟨fun x hx => by simp [hx], fun x hx => by simp [hx], hna, by simp⟩

theorem parseAuthority_eq_none (auth : ByteStr) (h : cutLast 64 auth = none) :
    parseAuthority auth = (none, auth) := by
  unfold parseAuthority; rw [h]

theorem parseAuthority_eq_some (auth ui host : ByteStr)
    (h : cutLast 64 auth = some (ui, host)) : parseAuthority auth = (some ui, host) := by
  unfold parseAuthority; rw [h]

theorem ctlFree_nil : CtlFree [] := fun b hb => absurd hb (List.not_mem_nil b)

theorem clean3_nil : Clean3 [] := ⟨⟨ctlFree_nil, by simp⟩, by simp⟩

theorem clean3_of_mem (t s : ByteStr) (h : Clean3 t) (sub : ∀ b ∈ s, b ∈ t) :
    Clean3 s :=
  ⟨⟨fun b hb => h.1.1 b (sub b hb), fun hm => h.1.2 (sub 35 hm)⟩,
   fun hm => h.2 (sub 63 hm)⟩

theorem clean2_of_mem (t s : ByteStr) (h : Clean2 t) (sub : ∀ b ∈ s, b ∈ t) :
    Clean2 s :=
  ⟨fun b hb => h.1 b (sub b hb), fun hm => h.2 (sub 35 hm)⟩

theorem ctlFree_of_mem (t s : ByteStr) (h : CtlFree t) (sub : ∀ b ∈ s, b ∈ t) :
    CtlFree s := fun b hb => h b (sub b hb)

theorem clean3_of_slash_mem (t s : ByteStr) (h : Clean3 t)
    (sub : ∀ b ∈ s, b = 47 ∨ b ∈ t) : Clean3 s := by
  refine ⟨⟨fun b hb => ?_, fun hm => ?_⟩, fun hm => ?_⟩
  · rcases sub b hb with rfl | hbt
    · decide
    · exact h.1.1 b hbt
  · rcases sub 35 hm with he | hbt
    · exact absurd he (by decide)
    · exact h.1.2 hbt
  · rcases sub 63 hm with he | hbt
    · exact absurd he (by decide)
    · exact h.2 hbt

theorem parseAfterSplits_wf (scheme rest rawQ : ByteStr) (fq : Bool) (frag : ByteStr)
    (u : GoURL)
    (hscheme : scheme = [] ∨ (validSchemeName scheme = true ∧ lowerAscii scheme = scheme))
    (hrest : Clean3 rest) (hrq : Clean2 rawQ) (hfq : fq = true → rawQ = [])
    (hfrag : CtlFree frag)
    (h : parseAfterSplits scheme rest rawQ fq frag = some u) : URLWF u := by
  unfold parseAfterSplits at h
  by_cases h1 : rest.head? ≠ some 47
  · rw [if_pos h1] at h
    by_cases h2 : scheme ≠ []
    · rw [if_pos h2] at h
      injection h with h'
      subst h'
      exact {
        scheme_ok := hscheme
        opaq_ok := fun _ => ⟨h2, h1, rfl, rfl, rfl⟩
        opaq_clean := hrest
        user_clean := fun ui hui => absurd hui (by simp)
        host_clean := ⟨clean3_nil, by simp, by simp⟩
        path_clean := clean3_nil
        path_slash := fun _ _ => Or.inl rfl
        query_ok := hfq
        rq_clean := hrq
        frag_clean := hfrag }
    · rw [if_neg h2] at h
      by_cases h3 : 58 ∈ firstSegment rest
      · rw [if_pos h3] at h; exact absurd h (by simp)
      · rw [if_neg h3] at h
        injection h with h'
        subst h'
        exact {
          scheme_ok := hscheme
          opaq_ok := fun hne => absurd rfl hne
          opaq_clean := clean3_nil
          user_clean := fun ui hui => absurd hui (by simp)
          host_clean := ⟨clean3_nil, by simp, by simp⟩
          path_clean := hrest
          path_slash := fun hs _ => absurd (not_ne_iff.mp h2) hs
          query_ok := hfq
          rq_clean := hrq
          frag_clean := hfrag }
  · rw [if_neg h1] at h
    by_cases h2 : rest.take 2 = [47, 47] ∧ (scheme ≠ [] ∨ rest.take 3 ≠ [47, 47, 47])
    · rw [if_pos h2] at h
      dsimp only at h
      obtain ⟨hmem1, h47, hmem2, hhead⟩ := splitAuthority_facts (rest.drop 2)
      have hdropmem : ∀ b ∈ rest.drop 2, b ∈ rest := fun b hb => List.mem_of_mem_drop hb
      have hauth : ∀ b ∈ (splitAuthority (rest.drop 2)).1, b ∈ rest :=
        fun b hb => hdropmem b (hmem1 b hb)
      have hpathm : ∀ b ∈ (splitAuthority (rest.drop 2)).2, b = 47 ∨ b ∈ rest := by
        intro b hb
        rcases hmem2 b hb with hb' | hb'
        · exact Or.inl hb'
        · exact Or.inr (hdropmem b hb')
      cases hcl : cutLast 64 (splitAuthority (rest.drop 2)).1 with
      | none =>
        rw [parseAuthority_eq_none _ hcl] at h
        injection h with h'
        subst h'
        exact {
          scheme_ok := hscheme
          opaq_ok := fun hne => absurd rfl hne
          opaq_clean := clean3_nil
          user_clean := fun ui hui => absurd hui (by simp)
          host_clean := ⟨clean3_of_mem rest _ hrest hauth, h47,
            cutLast_eq_none_mem 64 _ hcl⟩
          path_clean := clean3_of_slash_mem rest _ hrest hpathm
          path_slash := fun _ _ => hhead
          query_ok := hfq
          rq_clean := hrq
          frag_clean := hfrag }
      | some uh =>
        obtain ⟨ui, host⟩ := uh
        rw [parseAuthority_eq_some _ ui host hcl] at h
        injection h with h'
        subst h'
        obtain ⟨hadec, h64⟩ := cutLast_eq_some_decomp 64 _ ui host hcl
        have huim : ∀ b ∈ ui, b ∈ rest := by
          intro b hb
          exact hauth b (by rw [hadec]; simp [hb])
        have hhostm : ∀ b ∈ host, b ∈ rest := by
          intro b hb
          exact hauth b (by rw [hadec]; simp [hb])
        have h47ui : 47 ∉ ui := by
          intro hm
          exact h47 (by rw [hadec]; simp [hm])
        have h47host : (47 : Nat) ∉ host := by
          intro hm
          exact h47 (by rw [hadec]; simp [hm])
        exact {
          scheme_ok := hscheme
          opaq_ok := fun hne => absurd rfl hne
          opaq_clean := clean3_nil
          user_clean := fun ui' hui' => by
            injection hui' with he
            subst he
            exact ⟨clean3_of_mem rest _ hrest huim, h47ui⟩
          host_clean := ⟨clean3_of_mem rest _ hrest hhostm, h47host, h64⟩
          path_clean := clean3_of_slash_mem rest _ hrest hpathm
          path_slash := fun _ _ => hhead
          query_ok := hfq
          rq_clean := hrq
          frag_clean := hfrag }
    · rw [if_neg h2] at h
      injection h with h'
      subst h'
      exact {
        scheme_ok := hscheme
        opaq_ok := fun hne => absurd rfl hne
        opaq_clean := clean3_nil
        user_clean := fun ui hui => absurd hui (by simp)
        host_clean := ⟨clean3_nil, by simp, by simp⟩
        path_clean := hrest
        path_slash := fun _ _ => Or.inr (not_not.mp h1)
        query_ok := hfq
        rq_clean := hrq
        frag_clean := hfrag }

theorem afterScheme_wf (sch rest0 frag : ByteStr) (u : GoURL)
    (hsch : sch = [] ∨ (validSchemeName sch = true ∧ lowerAscii sch = sch))
    (hr : CtlFree rest0) (h35 : 35 ∉ rest0) (hfrag : CtlFree frag)
    (h : parseAfterSplits sch (splitQuery rest0).1 (splitQuery rest0).2.1
          (splitQuery rest0).2.2 frag = some u) : URLWF u := by
  obtain ⟨hq1, hq2, h63, hfq⟩ := splitQuery_facts rest0
  refine parseAfterSplits_wf _ _ _ _ _ u hsch ?_ ?_ hfq hfrag h
  · exact ⟨⟨ctlFree_of_mem _ _ hr hq1, fun hm => h35 (hq1 35 hm)⟩, h63⟩
  · exact ⟨ctlFree_of_mem _ _ hr hq2, fun hm => h35 (hq2 35 hm)⟩

theorem schemeRest_wf (t frag : ByteStr) (u : GoURL) (sch rest0 : ByteStr)
    (ht : CtlFree t) (h35 : 35 ∉ t) (hfrag : CtlFree frag)
    (hgs : getScheme t = some (sch, rest0))
    (h : parseAfterSplits sch (splitQuery rest0).1 (splitQuery rest0).2.1
          (splitQuery rest0).2.2 frag = some u) : URLWF u := by
  have hrm : ∀ b ∈ rest0, b ∈ t := by
    rcases getScheme_cases t sch rest0 hgs with ⟨_, hrt⟩ | ⟨_, _, pre, hdec, _⟩
    · intro b hb; rw [← hrt]; exact hb
    · intro b hb; rw [hdec]; simp [hb]
  have hsch : sch = [] ∨ (validSchemeName sch = true ∧ lowerAscii sch = sch) := by
    rcases getScheme_cases t sch rest0 hgs with ⟨he, _⟩ | ⟨hv, hl, _⟩
    · exact Or.inl he
    · exact Or.inr ⟨hv, hl⟩
  exact afterScheme_wf sch rest0 frag u hsch
    (ctlFree_of_mem _ _ ht hrm) (fun hm => h35 (hrm 35 hm)) hfrag h

theorem goParse_wf (s : ByteStr) (u : GoURL) (h : goParse s = some u) : URLWF u := by
  unfold goParse at h
  by_cases hctl : s.any isCtl = true
  · rw [if_pos hctl] at h; exact absurd h (by simp)
  · rw [if_neg hctl] at h
    have hsctl : CtlFree s := by
      intro b hb
      by_contra hc
      exact hctl (List.any_eq_true.mpr ⟨b, hb, by simpa using hc⟩)
    cases hcut : cutFirst 35 s with
    | none =>
      simp only [hcut] at h
      cases hgs : getScheme s with
      | none => simp only [hgs] at h; exact absurd h (by simp)
      | some sr =>
        obtain ⟨sch, rest0⟩ := sr
        simp only [hgs] at h
        exact schemeRest_wf s [] u sch rest0 hsctl (cutFirst_eq_none 35 s hcut)
          ctlFree_nil hgs h
    | some af =>
      obtain ⟨a, f⟩ := af
      obtain ⟨hdec, h35a⟩ := cutFirst_eq_some 35 s a f hcut
      simp only [hcut] at h
      have hactl : CtlFree a := by
        refine ctlFree_of_mem s a hsctl ?_
        intro b hb; rw [hdec]; simp [hb]
      have hfctl : CtlFree f := by
        refine ctlFree_of_mem s f hsctl ?_
        intro b hb; rw [hdec]; simp [hb]
      cases hgs : getScheme a with
      | none => simp only [hgs] at h; exact absurd h (by simp)
      | some sr =>
        obtain ⟨sch, rest0⟩ := sr
        simp only [hgs] at h
        exact schemeRest_wf a f u sch rest0 hactl h35a hfctl hgs h

theorem mem_upToLastSlash (t : ByteStr) (b : Nat) (hb : b ∈ upToLastSlash t) :
    b ∈ t := by
  unfold upToLastSlash at hb
  rw [List.mem_reverse] at hb
  have := (List.dropWhile_sublist (l := t.reverse) (p := fun c => c ≠ 47)).subset hb
  simpa using this

theorem mem_of_mem_splitSep (sep : Nat) (t : ByteStr) (seg : ByteStr)
    (hseg : seg ∈ splitSep sep t) (b : Nat) (hb : b ∈ seg) : b ∈ t := by
  induction t generalizing seg with
  | nil =>
    simp [splitSep] at hseg
    subst hseg
    exact absurd hb (by simp)
  | cons c cs ih =>
    rw [splitSep_cons_eq] at hseg
    cases hs : splitSep sep cs with
    | nil => exact absurd hs (splitSep_ne_nil sep cs)
    | cons r rs =>
      simp only [hs] at hseg
      by_cases hc : c = sep
      · rw [if_pos hc] at hseg
        rcases List.mem_cons.mp hseg with he | hm
        · subst he; exact absurd hb (by simp)
        · exact List.mem_cons_of_mem c (ih seg (hs ▸ hm) hb)
      · rw [if_neg hc] at hseg
        rcases List.mem_cons.mp hseg with he | hm
        · subst he
          rcases List.mem_cons.mp hb with he' | hm'
          · exact he' ▸ List.mem_cons_self c cs
          · exact List.mem_cons_of_mem c
              (ih r (hs ▸ List.mem_cons_self r rs) hm')
        · exact List.mem_cons_of_mem c
            (ih seg (hs ▸ List.mem_cons_of_mem r hm) hb)

theorem mem_of_mem_segsProcess (acc segs : List ByteStr) (seg : ByteStr)
    (h : seg ∈ segsProcess acc segs) : seg ∈ acc ∨ seg ∈ segs := by
  induction segs generalizing acc with
  | nil => exact Or.inl h
  | cons s0 rest ih =>
    rw [segsProcess] at h
    by_cases h1 : s0 = [46]
    · rw [if_pos h1] at h
      rcases ih acc h with hm | hm
      · exact Or.inl hm
      · exact Or.inr (List.mem_cons_of_mem s0 hm)
    · rw [if_neg h1] at h
      by_cases h2 : s0 = [46, 46]
      · rw [if_pos h2] at h
        rcases ih acc.dropLast h with hm | hm
        · exact Or.inl ((List.dropLast_sublist acc).subset hm)
        · exact Or.inr (List.mem_cons_of_mem s0 hm)
      · rw [if_neg h2] at h
        rcases ih (acc ++ [s0]) h with hm | hm
        · rcases List.mem_append.mp hm with hm' | hm'
          · exact Or.inl hm'
          · simp at hm'
            exact Or.inr (hm' ▸ List.mem_cons_self s0 rest)
        · exact Or.inr (List.mem_cons_of_mem s0 hm)

theorem mem_of_mem_joinSep (sep : Nat) (parts : List ByteStr) (b : Nat)
    (hb : b ∈ joinSep sep parts) : b = sep ∨ ∃ p ∈ parts, b ∈ p := by
  induction parts with
  | nil => exact absurd hb (by simp [joinSep])
  | cons x rest ih =>
    cases rest with
    | nil => exact Or.inr ⟨x, List.mem_cons_self x [], hb⟩
    | cons y t =>
      rw [show joinSep sep (x :: y :: t) = x ++ sep :: joinSep sep (y :: t) from rfl] at hb
      rcases List.mem_append.mp hb with hm | hm
      · exact Or.inr ⟨x, List.mem_cons_self x _, hm⟩
      · rcases List.mem_cons.mp hm with he | hm'
        · exact Or.inl he
        · rcases ih hm' with he | ⟨p, hp, hbp⟩
          · exact Or.inl he
          · exact Or.inr ⟨p, List.mem_cons_of_mem x hp, hbp⟩

theorem resolvePath_mem (base ref : ByteStr) (b : Nat)
    (hb : b ∈ resolvePath base ref) : b = 47 ∨ b ∈ base ∨ b ∈ ref := by
  unfold resolvePath at hb
  set full := (if ref = [] then base
               else if ref.head? = some 47 then ref
               else upToLastSlash base ++ ref) with hfull
  have hfullmem : ∀ x, x ∈ full → x ∈ base ∨ x ∈ ref := by
    intro x hx
    rw [hfull] at hx
    by_cases h1 : ref = []
    · rw [if_pos h1] at hx; exact Or.inl hx
    · rw [if_neg h1] at hx
      by_cases h2 : ref.head? = some 47
      · rw [if_pos h2] at hx; exact Or.inr hx
      · rw [if_neg h2] at hx
        rcases List.mem_append.mp hx with hm | hm
        · exact Or.inl (mem_upToLastSlash base x hm)
        · exact Or.inr hm
  by_cases hf : full = []
  · rw [if_pos hf] at hb
    exact absurd hb (by simp)
  · rw [if_neg hf] at hb
    rcases List.mem_cons.mp hb with he | hm
    · exact Or.inl he
    · rcases List.mem_append.mp hm with hm' | hm'
      · rcases mem_of_mem_joinSep 47 _ b hm' with he | ⟨p, hp, hbp⟩
        · exact Or.inl he
        · rcases mem_of_mem_segsProcess [] _ p hp with hpm | hpm
          · exact absurd hpm (by simp)
          · have hpm' : p ∈ splitSep 47 full := List.mem_of_mem_filter hpm
            rcases hfullmem b (mem_of_mem_splitSep 47 full p hpm' b hbp) with h | h
            · exact Or.inr (Or.inl h)
            · exact Or.inr (Or.inr h)
      · split_ifs at hm'
        · simp at hm'
          exact Or.inl hm'
        · exact absurd hm' (by simp)

theorem resolvePath_head (base ref : ByteStr) :
    resolvePath base ref = [] ∨ (resolvePath base ref).head? = some 47 := by
  unfold resolvePath
  by_cases hf : (if ref = [] then base
                 else if ref.head? = some 47 then ref
                 else upToLastSlash base ++ ref) = []
  · rw [if_pos hf]; exact Or.inl rfl
  · rw [if_neg hf]; exact Or.inr rfl

theorem resolvePath_clean3 (b r : ByteStr) (hb : Clean3 b) (hr : Clean3 r) :
    Clean3 (resolvePath b r) := by
  refine ⟨⟨fun x hx => ?_, fun hm => ?_⟩, fun hm => ?_⟩
  · rcases resolvePath_mem b r x hx with rfl | hx' | hx'
    · decide
    · exact hb.1.1 x hx'
    · exact hr.1.1 x hx'
  · rcases resolvePath_mem b r 35 hm with he | hx' | hx'
    · exact absurd he (by decide)
    · exact hb.1.2 hx'
    · exact hr.1.2 hx'
  · rcases resolvePath_mem b r 63 hm with he | hx' | hx'
    · exact absurd he (by decide)
    · exact hb.2 hx'
    · exact hr.2 hx'

theorem resolvePath_nil_nil : resolvePath [] [] = [] := rfl

theorem resolveReference_wf (base ref : GoURL) (wb : URLWF base) (wr : URLWF ref)
    (hb : base.scheme ≠ []) :
    URLWF (resolveReference base ref) ∧ (resolveReference base ref).scheme ≠ [] := by
  have hschok : validSchemeName (if ref.scheme = [] then base.scheme else ref.scheme) = true ∧
      lowerAscii (if ref.scheme = [] then base.scheme else ref.scheme) =
        (if ref.scheme = [] then base.scheme else ref.scheme) := by
    by_cases h : ref.scheme = []
    · rw [if_pos h]
      rcases wb.scheme_ok with hb0 | hv
      · exact absurd hb0 hb
      · exact hv
    · rw [if_neg h]
      rcases wr.scheme_ok with h0 | hv
      · exact absurd h0 h
      · exact hv
  have hschne : (if ref.scheme = [] then base.scheme else ref.scheme) ≠ [] := by
    by_cases h : ref.scheme = []
    · rw [if_pos h]; exact hb
    · rw [if_neg h]; exact h
  unfold resolveReference
  by_cases h1 : ref.scheme ≠ [] ∨ ref.host ≠ [] ∨ ref.user ≠ none
  · rw [if_pos h1]
    refine ⟨?_, hschne⟩
    exact {
      scheme_ok := Or.inr hschok
      opaq_ok := fun hne => by
        have o := wr.opaq_ok hne
        exact ⟨hschne, o.2.1, o.2.2.1, o.2.2.2.1, by rw [o.2.2.2.2]; rfl⟩
      opaq_clean := wr.opaq_clean
      user_clean := wr.user_clean
      host_clean := wr.host_clean
      path_clean := resolvePath_clean3 _ _ wr.path_clean clean3_nil
      path_slash := fun _ _ => resolvePath_head _ _
      query_ok := wr.query_ok
      rq_clean := wr.rq_clean
      frag_clean := wr.frag_clean }
  · rw [if_neg h1]
    have hrs : ref.scheme = [] := by
      by_contra hc
      exact h1 (Or.inl hc)
    by_cases h2 : ref.opaq ≠ []
    · exact absurd (wr.opaq_ok h2).1 (by simp [hrs])
    · rw [if_neg h2]
      have hopq : ref.opaq = [] := not_ne_iff.mp h2
      by_cases h3 : ref.path = [] ∧ ref.forceQuery = false ∧ ref.rawQuery = []
      · rw [if_pos h3]
        refine ⟨?_, hschne⟩
        exact {
          scheme_ok := Or.inr hschok
          opaq_ok := fun hne => absurd hopq hne
          opaq_clean := wr.opaq_clean
          user_clean := wb.user_clean
          host_clean := wb.host_clean
          path_clean := resolvePath_clean3 _ _ wb.path_clean wr.path_clean
          path_slash := fun _ _ => resolvePath_head _ _
          query_ok := fun hfq => by
            rw [show ({ ref with
                scheme := if ref.scheme = [] then base.scheme else ref.scheme,
                user := base.user, host := base.host,
                path := resolvePath base.path ref.path,
                rawQuery := base.rawQuery,
                fragment := if ref.fragment = [] then base.fragment
                  else ref.fragment } : GoURL).forceQuery = ref.forceQuery from rfl,
              h3.2.1] at hfq
            exact absurd hfq (by simp)
          rq_clean := wb.rq_clean
          frag_clean := by
            by_cases hf : ref.fragment = []
            · show CtlFree (if ref.fragment = [] then base.fragment else ref.fragment)
              rw [if_pos hf]
              exact wb.frag_clean
            · show CtlFree (if ref.fragment = [] then base.fragment else ref.fragment)
              rw [if_neg hf]
              exact wr.frag_clean }
      · rw [if_neg h3]
        refine ⟨?_, hschne⟩
        exact {
          scheme_ok := Or.inr hschok
          opaq_ok := fun hne => absurd hopq hne
          opaq_clean := wr.opaq_clean
          user_clean := wb.user_clean
          host_clean := wb.host_clean
          path_clean := resolvePath_clean3 _ _ wb.path_clean wr.path_clean
          path_slash := fun _ _ => resolvePath_head _ _
          query_ok := wr.query_ok
          rq_clean := wr.rq_clean
          frag_clean := wr.frag_clean }

theorem bodyOf_mem (u : GoURL) (b : Nat) (hb : b ∈ bodyOf u) :
    b ∈ u.opaq ∨ b = 47 ∨ (∃ ui, u.user = some ui ∧ b ∈ ui) ∨ b = 64 ∨
    b ∈ u.host ∨ b ∈ u.path := by
  unfold bodyOf at hb
  by_cases hop : u.opaq ≠ []
  · rw [if_pos hop] at hb
    exact Or.inl hb
  · rw [if_neg hop] at hb
    rcases List.mem_append.mp hb with hb1 | hba
    · rcases List.mem_append.mp hb1 with hb2 | hsl
      · unfold authPart at hb2
        by_cases h1 : u.scheme ≠ [] ∨ u.host ≠ [] ∨ u.user ≠ none
        · rw [if_pos h1] at hb2
          rcases List.mem_append.mp hb2 with hb3 | hho
          · rcases List.mem_append.mp hb3 with hsl2 | hui
            · split_ifs at hsl2
              · simp at hsl2
                exact Or.inr (Or.inl hsl2)
              · exact absurd hsl2 (by simp)
            · cases huser : u.user with
              | none =>
                simp only [huser] at hui
                exact absurd hui (by simp)
              | some ui =>
                simp only [huser] at hui
                rcases List.mem_append.mp hui with hm | hm
                · exact Or.inr (Or.inr (Or.inl ⟨ui, rfl, hm⟩))
                · simp at hm
                  exact Or.inr (Or.inr (Or.inr (Or.inl hm)))
          · exact Or.inr (Or.inr (Or.inr (Or.inr (Or.inl hho))))
        · rw [if_neg h1] at hb2
          exact absurd hb2 (by simp)
      · split_ifs at hsl
        · simp at hsl
          exact Or.inr (Or.inl hsl)
        · exact absurd hsl (by simp)
    · exact Or.inr (Or.inr (Or.inr (Or.inr (Or.inr hba))))

theorem bodyOf_clean (u : GoURL) (w : URLWF u) :
    CtlFree (bodyOf u) ∧ 35 ∉ bodyOf u ∧ 63 ∉ bodyOf u := by
  refine ⟨fun b hb => ?_, fun hm => ?_, fun hm => ?_⟩
  · rcases bodyOf_mem u b hb with h | rfl | ⟨ui, hui, h⟩ | rfl | h | h
    · exact w.opaq_clean.1.1 b h
    · decide
    · exact (w.user_clean ui hui).1.1.1 b h
    · decide
    · exact w.host_clean.1.1.1 b h
    · exact w.path_clean.1.1 b h
  · rcases bodyOf_mem u 35 hm with h | he | ⟨ui, hui, h⟩ | he | h | h
    · exact w.opaq_clean.1.2 h
    · exact absurd he (by decide)
    · exact (w.user_clean ui hui).1.1.2 h
    · exact absurd he (by decide)
    · exact w.host_clean.1.1.2 h
    · exact w.path_clean.1.2 h
  · rcases bodyOf_mem u 63 hm with h | he | ⟨ui, hui, h⟩ | he | h | h
    · exact w.opaq_clean.2 h
    · exact absurd he (by decide)
    · exact (w.user_clean ui hui).1.2 h
    · exact absurd he (by decide)
    · exact w.host_clean.1.2 h
    · exact w.path_clean.2 h

theorem splitAuthority_eval (a pa : ByteStr) (h47 : 47 ∉ a)
    (hpa : pa = [] ∨ pa.head? = some 47) : splitAuthority (a ++ pa) = (a, pa) := by
  rcases hpa with rfl | hh
  · rw [List.append_nil]
    unfold splitAuthority
    rw [cutFirst_not_mem 47 a h47]
  · cases pa with
    | nil => exact absurd hh (by simp)
    | cons c t =>
      have hc : c = 47 := by simpa using hh
      subst hc
      unfold splitAuthority
      rw [cutFirst_append 47 a t h47]

theorem pas_opaque (sc op rq fr : ByteStr) (fq : Bool)
    (hsc : sc ≠ []) (hhd : op.head? ≠ some 47) :
    parseAfterSplits sc op rq fq fr = some ⟨sc, op, none, [], [], fq, rq, fr⟩ := by
  unfold parseAfterSplits
  rw [if_pos hhd, if_pos hsc]

theorem pas_authority (sc auth pa rq fr : ByteStr) (fq : Bool)
    (hsc : sc ≠ []) (h47 : 47 ∉ auth) (hpa : pa = [] ∨ pa.head? = some 47) :
    parseAfterSplits sc (47 :: 47 :: (auth ++ pa)) rq fq fr =
      some ⟨sc, [], (parseAuthority auth).1, (parseAuthority auth).2, pa, fq, rq, fr⟩ := by
  unfold parseAfterSplits
  rw [if_neg (by simp)]
  rw [if_pos (⟨rfl, Or.inl hsc⟩ :
    (47 :: 47 :: (auth ++ pa)).take 2 = [47, 47] ∧
      (sc ≠ [] ∨ (47 :: 47 :: (auth ++ pa)).take 3 ≠ [47, 47, 47]))]
  dsimp only
  rw [show (47 :: 47 :: (auth ++ pa)).drop 2 = auth ++ pa from rfl,
    splitAuthority_eval auth pa h47 hpa]

theorem parseAfterSplits_roundtrip (u : GoURL) (w : URLWF u) (hs : u.scheme ≠ []) :
    parseAfterSplits u.scheme (bodyOf u) u.rawQuery u.forceQuery u.fragment = some u := by
  obtain ⟨sc, op, us, ho, pa, fq, rq, fr⟩ := u
  by_cases hop : op ≠ []
  · obtain ⟨hsc', hhd, hho, hus, hpa⟩ := w.opaq_ok hop
    dsimp only at hhd hho hus hpa
    have hbody : bodyOf ⟨sc, op, us, ho, pa, fq, rq, fr⟩ = op := by
      unfold bodyOf
      exact if_pos hop
    rw [hbody, pas_opaque sc op rq fr fq hs hhd, hho, hus, hpa]
  · have hop' : op = [] := not_ne_iff.mp hop
    subst hop'
    have hslash := w.path_slash hs rfl
    have h64ho : (64 : Nat) ∉ ho := w.host_clean.2.2
    have h47ho : (47 : Nat) ∉ ho := w.host_clean.2.1
    by_cases hAu : ho ≠ [] ∨ us ≠ none
    · have hbody : bodyOf ⟨sc, [], us, ho, pa, fq, rq, fr⟩ =
          47 :: 47 :: (((match us with
            | some ui => ui ++ [64]
            | none => []) ++ ho) ++ pa) := by
        unfold bodyOf authPart
        rw [if_neg (by simp), if_pos (Or.inl hs),
          if_pos (by rcases hAu with h | h; exacts [Or.inl h, Or.inr (Or.inr h)]),
          if_neg (by
            rcases hslash with hpa | hpa
            · intro hcon; exact hcon.1 hpa
            · intro hcon; exact hcon.2.1 hpa)]
        simp [List.append_assoc]
      rw [hbody]
      cases hus : us with
      | some ui =>
        have h47ui : (47 : Nat) ∉ ui := (w.user_clean ui (by rw [hus])).2
        have hui64 : ((ui ++ [64]) ++ ho) = ui ++ 64 :: ho := by simp
        rw [hui64, pas_authority sc (ui ++ 64 :: ho) pa rq fr fq hs
          (by
            intro hm
            rcases List.mem_append.mp hm with hm' | hm'
            · exact h47ui hm'
            · rcases List.mem_cons.mp hm' with he | hm''
              · exact absurd he (by decide)
              · exact h47ho hm'') hslash,
          parseAuthority_eq_some (ui ++ 64 :: ho) ui ho (cutLast_append 64 ui ho h64ho)]
      | none =>
        rw [show (((match (none : Option ByteStr) with
            | some ui => ui ++ [64]
            | none => []) ++ ho) : ByteStr) = ho by simp]
        rw [pas_authority sc ho pa rq fr fq hs h47ho hslash,
          parseAuthority_eq_none ho (cutLast_not_mem 64 ho h64ho)]
    · have hho : ho = [] := by
        by_contra hc
        exact hAu (Or.inl hc)
      have hus : us = none := by
        by_contra hc
        exact hAu (Or.inr hc)
      subst hho
      subst hus
      by_cases hpa : pa = []
      · subst hpa
        have hbody : bodyOf ⟨sc, [], none, [], [], fq, rq, fr⟩ = [] := by
          unfold bodyOf authPart
          simp
        rw [hbody, pas_opaque sc [] rq fr fq hs (by simp)]
      · have hpahd : pa.head? = some 47 := by
          rcases hslash with h | h
          · exact absurd h hpa
          · exact h
        have hbody : bodyOf ⟨sc, [], none, [], pa, fq, rq, fr⟩ =
            47 :: 47 :: (([] : ByteStr) ++ pa) := by
          unfold bodyOf authPart
          rw [if_neg (by simp), if_pos (Or.inl hs),
            if_pos (Or.inr (Or.inl hpa)),
            if_neg (by intro hcon; exact hcon.2.1 hpahd)]
          simp
        rw [hbody, pas_authority sc [] pa rq fr fq hs (by simp) (Or.inr hpahd),
          parseAuthority_eq_none [] (cutLast_not_mem 64 [] (by simp))]

/-- The query part of the serialization. -/
def qpOf (u : GoURL) : ByteStr :=
  if u.forceQuery = true ∨ u.rawQuery ≠ [] then 63 :: u.rawQuery else []

/-- The fragment part of the serialization. -/
def fpOf (u : GoURL) : ByteStr :=
  if u.fragment ≠ [] then 35 :: u.fragment else []

/-- Everything before the fragment part. -/
def preOf (u : GoURL) : ByteStr := (u.scheme ++ [58]) ++ bodyOf u ++ qpOf u

theorem urlString_eq (u : GoURL) (hs : u.scheme ≠ []) :
    urlString u = preOf u ++ fpOf u := by
  unfold urlString preOf qpOf fpOf
  rw [if_pos hs]

theorem preOf_no35 (u : GoURL) (w : URLWF u) : 35 ∉ preOf u := by
  intro hm
  unfold preOf at hm
  rcases List.mem_append.mp hm with hm1 | hmq
  · rcases List.mem_append.mp hm1 with hm2 | hmb
    · rcases List.mem_append.mp hm2 with hms | hm58
      · exact (scheme_bytes_clean u w 35 hms).2.1 rfl
      · simp at hm58
    · exact (bodyOf_clean u w).2.1 hmb
  · unfold qpOf at hmq
    split_ifs at hmq
    · rcases List.mem_cons.mp hmq with he | hmr
      · exact absurd he (by decide)
      · exact w.rq_clean.2 hmr
    · exact absurd hmq (by simp)

theorem urlString_ctlFree (u : GoURL) (w : URLWF u) (hs : u.scheme ≠ []) :
    CtlFree (urlString u) := by
  intro b hb
  rw [urlString_eq u hs] at hb
  rcases List.mem_append.mp hb with hbp | hbf
  · unfold preOf at hbp
    rcases List.mem_append.mp hbp with hm1 | hmq
    · rcases List.mem_append.mp hm1 with hm2 | hmb
      · rcases List.mem_append.mp hm2 with hms | hm58
        · exact (scheme_bytes_clean u w b hms).2.2.2.2
        · simp at hm58
          subst hm58
          decide
      · exact (bodyOf_clean u w).1 b hmb
    · unfold qpOf at hmq
      split_ifs at hmq
      · rcases List.mem_cons.mp hmq with he | hmr
        · subst he; decide
        · exact w.rq_clean.1 b hmr
      · exact absurd hmq (by simp)
  · unfold fpOf at hbf
    split_ifs at hbf
    · rcases List.mem_cons.mp hbf with he | hmf
      · subst he; decide
      · exact w.frag_clean b hmf
    · exact absurd hbf (by simp)

theorem getScheme_preOf (u : GoURL) (w : URLWF u) (hs : u.scheme ≠ []) :
    getScheme (preOf u) = some (u.scheme, bodyOf u ++ qpOf u) := by
  obtain ⟨hv, hfix⟩ : validSchemeName u.scheme = true ∧ lowerAscii u.scheme = u.scheme := by
    rcases w.scheme_ok with h | h
    · exact absurd h hs
    · exact h
  have hsch58 : (58 : Nat) ∉ u.scheme := fun hm => (scheme_bytes_clean u w 58 hm).1 rfl
  have hpre : preOf u = u.scheme ++ 58 :: (bodyOf u ++ qpOf u) := by
    unfold preOf
    simp [List.append_assoc]
  rw [hpre, getScheme_eq_some _ _ _ (cutFirst_append 58 _ _ hsch58),
    if_neg hs, if_pos hv, hfix]

theorem splitQuery_body_qp (u : GoURL) (w : URLWF u) :
    splitQuery (bodyOf u ++ qpOf u) = (bodyOf u, u.rawQuery, u.forceQuery) := by
  have hb63 : (63 : Nat) ∉ bodyOf u := (bodyOf_clean u w).2.2
  by_cases hrq : u.rawQuery ≠ []
  · have hfq : u.forceQuery = false := by
      cases hfq0 : u.forceQuery
      · rfl
      · exact absurd (w.query_ok hfq0) hrq
    have hqp : qpOf u = 63 :: u.rawQuery := if_pos (Or.inr hrq)
    rw [hqp, splitQuery_eq_some _ _ _ (cutFirst_append 63 _ _ hb63), if_neg hrq, hfq]
  · have hrq' : u.rawQuery = [] := not_ne_iff.mp hrq
    by_cases hfq : u.forceQuery = true
    · have hqp : qpOf u = 63 :: ([] : ByteStr) := by
        unfold qpOf
        rw [if_pos (Or.inl hfq), hrq']
      rw [hqp, splitQuery_eq_some _ _ _ (cutFirst_append 63 _ [] hb63), if_pos rfl,
        hrq', hfq]
    · have hfq' : u.forceQuery = false := by
        cases hfq0 : u.forceQuery
        · rfl
        · exact absurd hfq0 hfq
      have hqp : qpOf u = [] := by
        unfold qpOf
        rw [if_neg]
        intro hcon
        rcases hcon with h | h
        · exact hfq h
        · exact h hrq'
      rw [hqp, List.append_nil, splitQuery_eq_none _ (cutFirst_not_mem 63 _ hb63),
        hrq', hfq']

/-- The serialization of a well-formed absolute record re-parses to the
same record. -/
theorem goParse_urlString (u : GoURL) (w : URLWF u) (hs : u.scheme ≠ []) :
    goParse (urlString u) = some u := by
  have hctl : ¬ (urlString u).any isCtl = true := by
    rw [List.any_eq_true]
    rintro ⟨b, hb, hc⟩
    rw [urlString_ctlFree u w hs b hb] at hc
    exact absurd hc (by simp)
  unfold goParse
  rw [if_neg hctl]
  by_cases hfr : u.fragment = []
  · have hurl2 : urlString u = preOf u := by
      rw [urlString_eq u hs]
      unfold fpOf
      rw [if_neg (not_ne_iff.mpr hfr), List.append_nil]
    have hc : cutFirst 35 (preOf u) = none :=
      cutFirst_not_mem 35 _ (preOf_no35 u w)
    simp only [hurl2, hc, getScheme_preOf u w hs, splitQuery_body_qp u w]
    rw [← hfr]
    exact parseAfterSplits_roundtrip u w hs
  · have hurl2 : urlString u = preOf u ++ 35 :: u.fragment := by
      rw [urlString_eq u hs]
      unfold fpOf
      rw [if_pos hfr]
    have hc : cutFirst 35 (urlString u) = some (preOf u, u.fragment) := by
      rw [hurl2]
      exact cutFirst_append 35 _ _ (preOf_no35 u w)
    simp only [hc, getScheme_preOf u w hs, splitQuery_body_qp u w]
    exact parseAfterSplits_roundtrip u w hs

theorem resolveInput_wf (input base : ByteStr) (parsed : GoURL)
    (h : resolveInput input base = some parsed) : URLWF parsed := by
  by_cases hb : base = []
  · subst hb
    cases hi : goParse input with
    | none => rw [resolveInput_nil_none _ hi] at h; exact absurd h (by simp)
    | some p =>
      rw [resolveInput_nil_some _ p hi] at h
      by_cases habs : p.isAbs
      · rw [if_neg (by simp [habs])] at h
        injection h with h'
        subst h'
        exact goParse_wf input p hi
      · rw [if_pos habs] at h
        exact absurd h (by simp)
  · cases hB : goParse base with
    | none => rw [resolveInput_base_none _ _ hb hB] at h; exact absurd h (by simp)
    | some b =>
      by_cases habs : b.isAbs
      · cases hi : goParse input with
        | none =>
          rw [resolveInput_base_input_none _ _ b hb hB habs hi] at h
          exact absurd h (by simp)
        | some ref =>
          rw [resolveInput_base_input_some _ _ b ref hb hB habs hi] at h
          injection h with h'
          subst h'
          exact (resolveReference_wf b ref (goParse_wf base b hB)
            (goParse_wf input ref hi) habs).1
      · rw [resolveInput_base_notAbs _ _ b hb hB habs] at h
        exact absurd h (by simp)

theorem newURL_inner_wf (input base : ByteStr) (fresh : Nat) (u : URL)
    (h : newURL input base fresh = some u) : URLWF u.inner := by
  cases hr : resolveInput input base with
  | none => rw [newURL_eq_none _ _ _ hr] at h; exact absurd h (by simp)
  | some parsed =>
    rw [newURL_eq_some _ _ _ parsed hr] at h
    by_cases hps : parsed.scheme = []
    · rw [if_pos hps] at h; exact absurd h (by simp)
    · rw [if_neg hps] at h
      injection h with h'
      rw [← h']
      exact resolveInput_wf input base parsed hr

/-! ## Synchronization invariant (C1) -/

/-- Whether `SetHref href` succeeds, and hence re-parses the raw query
into the collection: the new href must parse and be absolute
(`url.go`). Its success does not depend on the current state. -/
def hrefResets (href : ByteStr) : Bool :=
  match goParse href with
  | none => false
  | some parsed => if parsed.isAbs then true else false

/-- The synchronization equality in a given direction: `true` after a
collection mutation (the Form Codec serialization of the entries is the
owner's raw query, character for character), `false` after a successful
parse or a search/href reset (the entries are the Form Codec parse of
the raw query). -/
def DirSync : Bool → URL → Prop
  | true, u => encodeFormEncoded u.spEntries = u.inner.rawQuery
  | false, u => u.spEntries = parseFormEncoded u.inner.rawQuery

/-- How one public operation changes the direction of the last
synchronizing step: `Append`, `Delete`, `Set` and `Sort` serialize the
entries into the raw query; `SetSearch` and a successful `SetHref`
re-parse the raw query into the entries; a failing `SetHref` leaves the
state, and hence the direction, unchanged. -/
def stepDir (b : Bool) : UrlOp → Bool
  | .opAppend _ _ => true
  | .opDelete _ _ => true
  | .opSet _ _ => true
  | .opSort => true
  | .opSetSearch _ => false
  | .opSetHref href => if hrefResets href then false else b

/-- The direction of the last synchronizing step after running `ops`
from a freshly parsed URL (the parse itself synchronizes in the parse
direction, so the fold starts at `false`). -/
def lastSyncEncodes (ops : List UrlOp) : Bool :=
  ops.foldl stepDir false

theorem applyOp_dirSync (u : URL) (op : UrlOp) (b : Bool) (h : DirSync b u) :
    DirSync (stepDir b op) (applyOp u op) := by
  cases op with
  | opAppend k v => exact rfl
  | opDelete k v => exact rfl
  | opSet k v => exact rfl
  | opSort => exact rfl
  | opSetSearch s => exact rfl
  | opSetHref href =>
    show DirSync (if hrefResets href then false else b)
      (match setHref u href with | none => u | some u' => u')
    cases hs : setHref u href with
    | none =>
      have hr : hrefResets href = false := by
        unfold hrefResets
        cases hg : goParse href with
        | none => rfl
        | some parsed =>
          rw [setHref_eq_some u href parsed hg] at hs
          by_cases habs : parsed.isAbs
          · rw [if_neg (by simp [habs])] at hs
            exact absurd hs (by simp)
          · exact if_neg habs
      rw [hr]
      exact h
    | some u' =>
      have hu' := setHref_inv u href u' hs
      have hr : hrefResets href = true := by
        unfold hrefResets
        cases hg : goParse href with
        | none =>
          rw [setHref_eq_none u href hg] at hs
          exact absurd hs (by simp)
        | some parsed =>
          rw [setHref_eq_some u href parsed hg] at hs
          by_cases habs : parsed.isAbs
          · exact if_pos habs
          · rw [if_pos habs] at hs
            exact absurd hs (by simp)
      rw [hr, hu']
      exact rfl

theorem run_dirSync (u : URL) (ops : List UrlOp) (b : Bool) (h : DirSync b u) :
    DirSync (ops.foldl stepDir b) (run u ops) := by
  induction ops generalizing u b with
  | nil => exact h
  | cons op rest ih => exact ih (applyOp u op) (stepDir b op) (applyOp_dirSync u op b h)

/-- C1 counterexample: immediately after the successful parse of
`"http://h?a"` the owner's raw query is `"a"` but the Form Codec
serialization of the attached collection's pairs is `"a="` — the
claimed character-for-character equality fails at this observation
point. -/
theorem sync_invariant_counterexample :
    (newURL [104, 116, 116, 112, 58, 47, 47, 104, 63, 97] [] 0).map
      (fun u => (encodeFormEncoded u.spEntries, u.inner.rawQuery)) =
      some ([97, 61], [97]) ∧
    ([97, 61] : ByteStr) ≠ [97] := by decide

/-- C1 (amended): for every URL built by a successful parse and every
sequence of public operations, at the resulting observation point the
collection and the owner's raw query are synchronized in the direction
of the last synchronizing step. When that step was a collection
mutation (`Append`, `Delete`, `Set`, `Sort`), the Form Codec
serialization of the entries equals the raw query character for
character; when it was the parse itself, a `SetSearch`, or a successful
`SetHref` (a failing `SetHref` changes nothing), the entries equal the
Form Codec parse of the raw query — the serialization then need not
equal the raw query, e.g. raw query "a" serializes back as "a=". -/
theorem sync_invariant_amended (input base : ByteStr) (fresh : Nat)
    (ops : List UrlOp) (u₀ : URL) (h : newURL input base fresh = some u₀) :
    DirSync (lastSyncEncodes ops) (run u₀ ops) := by
  have h2 := (newURL_inv input base fresh u₀ h).2
  have h0 : DirSync false u₀ := congrArg URL.spEntries h2
  exact run_dirSync u₀ ops false h0

/-- C1 witness: the amended invariant at the parse of `"http://h?a"`
followed by a `SetSearch` and then a `Set`; the last synchronizing step
is then a collection mutation, so the equality it asserts is the
serialization of the entries being the raw query. -/
theorem sync_invariant_amended_witness :
    DirSync (lastSyncEncodes [UrlOp.opSetSearch [63, 98], UrlOp.opSet [97] [50]])
      (run ⟨⟨[104, 116, 116, 112], [], none, [104], [], false, [97], []⟩,
        0, [([97], [])]⟩ [UrlOp.opSetSearch [63, 98], UrlOp.opSet [97] [50]]) :=
  sync_invariant_amended [104, 116, 116, 112, 58, 47, 47, 104, 63, 97] [] 0
    [UrlOp.opSetSearch [63, 98], UrlOp.opSet [97] [50]]
    ⟨⟨[104, 116, 116, 112], [], none, [104], [], false, [97], []⟩, 0, [([97], [])]⟩
    (by decide)

/-! ## Error conditions of `NewURL` (C2) -/

/-- The resolved record has an empty scheme (false when there is no
resolved record). -/
def schemeEmptyOf : Option GoURL → Prop
  | some u => u.scheme = []
  | none => False

instance (o : Option GoURL) : Decidable (schemeEmptyOf o) :=
  match o with
  | some u => inferInstanceAs (Decidable (u.scheme = []))
  | none => isFalse (fun h => h)

/-- The resolution of input against base, ignoring the error checks of
`NewURL` (used to state the claim's "the resolved result"). -/
def resolvedOf (input base : ByteStr) : Option GoURL :=
  if base ≠ [] then
    match goParse base, goParse input with
    | some b, some ref => some (resolveReference b ref)
    | _, _ => none
  else goParse input

/-- The error condition exactly as claim C2 states it: a non-empty base
fails to parse or is not absolute; an empty base with an input that
fails to parse or is not absolute; or the resolved result has an empty
scheme. -/
def claimC2ErrCond (input base : ByteStr) : Prop :=
  (base ≠ [] ∧ ((goParse base).isNone = true ∨ schemeEmptyOf (goParse base))) ∨
  (base = [] ∧ ((goParse input).isNone = true ∨ schemeEmptyOf (goParse input))) ∨
  schemeEmptyOf (resolvedOf input base)

instance (input base : ByteStr) : Decidable (claimC2ErrCond input base) := by
  unfold claimC2ErrCond; infer_instance

/-- The error case claim C2 misses: the base is supplied, parses and is
absolute, but the input itself fails to parse. -/
def inputParseFailCond (input base : ByteStr) : Prop :=
  base ≠ [] ∧ (goParse base).isSome = true ∧ ¬ schemeEmptyOf (goParse base) ∧
    (goParse input).isNone = true

/-- C2 counterexample: with the absolute base `"http://h"` and the input
`"\n"` (a control byte the resolution primitive rejects), `NewURL`
returns an error although none of the claim's three conditions holds. -/
theorem newURL_error_iff_counterexample :
    newURL [10] [104, 116, 116, 112, 58, 47, 47, 104] 0 = none ∧
    ¬ claimC2ErrCond [10] [104, 116, 116, 112, 58, 47, 47, 104] := by decide

/-- C2 (amended): `NewURL` returns an `InvalidURL` error iff the claim's
conditions hold **or** a non-empty, valid and absolute base is combined
with an input that fails to parse; in every non-error case the returned
URL has a non-empty scheme and carries the collection parsed from its
raw query. -/
theorem newURL_error_iff (input base : ByteStr) (fresh : Nat) :
    (newURL input base fresh = none ↔
      claimC2ErrCond input base ∨ inputParseFailCond input base) ∧
    (∀ u : URL, newURL input base fresh = some u →
      u.inner.scheme ≠ [] ∧ u.spEntries = parseFormEncoded u.inner.rawQuery ∧
      u.spId = fresh) := by
  constructor
  · by_cases hb : base = []
    · subst hb
      cases hi : goParse input with
      | none =>
        rw [newURL_eq_none _ _ fresh (resolveInput_nil_none _ hi)]
        simp [claimC2ErrCond, inputParseFailCond, resolvedOf, schemeEmptyOf, hi]
      | some p =>
        by_cases hs : p.scheme = []
        · rw [newURL_eq_none _ _ fresh
            (by rw [resolveInput_nil_some _ p hi]; exact if_pos (by simp [GoURL.isAbs, hs]))]
          simp [claimC2ErrCond, inputParseFailCond, resolvedOf, schemeEmptyOf, hi, hs]
        · have hri : resolveInput input [] = some p := by
            rw [resolveInput_nil_some _ p hi]; exact if_neg (by simp [GoURL.isAbs, hs])
          rw [newURL_eq_some _ _ fresh p hri, if_neg hs]
          simp [claimC2ErrCond, inputParseFailCond, resolvedOf, schemeEmptyOf, hi, hs]
    · cases hB : goParse base with
      | none =>
        rw [newURL_eq_none _ _ fresh (resolveInput_base_none _ _ hb hB)]
        simp [claimC2ErrCond, inputParseFailCond, resolvedOf, schemeEmptyOf, hb, hB]
      | some b =>
        by_cases hbs : b.scheme = []
        · rw [newURL_eq_none _ _ fresh
            (resolveInput_base_notAbs _ _ b hb hB (by simp [GoURL.isAbs, hbs]))]
          simp [claimC2ErrCond, inputParseFailCond, resolvedOf, schemeEmptyOf, hb, hB, hbs]
        · cases hi : goParse input with
          | none =>
            rw [newURL_eq_none _ _ fresh
              (resolveInput_base_input_none _ _ b hb hB (by simp [GoURL.isAbs, hbs]) hi)]
            simp [claimC2ErrCond, inputParseFailCond, resolvedOf, schemeEmptyOf,
              hb, hB, hbs, hi]
          | some ref =>
            have hri := resolveInput_base_input_some input base b ref hb hB
              (by simp [GoURL.isAbs, hbs]) hi
            rw [newURL_eq_some _ _ fresh _ hri]
            by_cases hrs : (resolveReference b ref).scheme = []
            · rw [if_pos hrs]
              simp [claimC2ErrCond, inputParseFailCond, resolvedOf, schemeEmptyOf,
                hb, hB, hbs, hi, hrs]
            · rw [if_neg hrs]
              simp [claimC2ErrCond, inputParseFailCond, resolvedOf, schemeEmptyOf,
                hb, hB, hbs, hi, hrs]
  · intro u hu
    obtain ⟨hs, hey⟩ := newURL_inv input base fresh u hu
    cases u with
    | mk inner spId spEntries =>
      simp only [URL.mk.injEq, true_and] at hey
      exact ⟨hs, hey.2, hey.1⟩

/-- C2 witness: the success side at the parse of `"http://h?a"`. -/
theorem newURL_error_iff_witness :
    (⟨⟨[104, 116, 116, 112], [], none, [104], [], false, [97], []⟩, 0,
        [([97], [])]⟩ : URL).inner.scheme ≠ [] ∧
    (⟨⟨[104, 116, 116, 112], [], none, [104], [], false, [97], []⟩, 0,
        [([97], [])]⟩ : URL).spEntries =
      parseFormEncoded (⟨⟨[104, 116, 116, 112], [], none, [104], [], false, [97], []⟩,
        0, [([97], [])]⟩ : URL).inner.rawQuery ∧
    (⟨⟨[104, 116, 116, 112], [], none, [104], [], false, [97], []⟩, 0,
        [([97], [])]⟩ : URL).spId = 0 :=
  (newURL_error_iff [104, 116, 116, 112, 58, 47, 47, 104, 63, 97] [] 0).2
    ⟨⟨[104, 116, 116, 112], [], none, [104], [], false, [97], []⟩, 0, [([97], [])]⟩
    (by decide)

/-! ## `SetHref` preserves the collection identity (C9) -/

/-- C9: when `SetHref` succeeds, the collection attached afterwards is
the same object as before (the allocation token is unchanged — the
source updates the existing collection in place), and its entries are
the Form Codec parse of the new URL's raw query. -/
theorem setHref_preserves_identity (u : URL) (href : ByteStr) (u' : URL)
    (h : setHref u href = some u') :
    u'.spId = u.spId ∧ u'.spEntries = parseFormEncoded u'.inner.rawQuery := by
  have hey := setHref_inv u href u' h
  cases u' with
  | mk inner spId spEntries =>
    simp only [URL.mk.injEq, true_and] at hey
    exact ⟨hey.1, hey.2⟩

/-! ## Re-parse round trip (C8) -/

/-- C8: for every input (and optional base) that parses successfully,
re-parsing the serialization `Href()` of the resulting URL succeeds and
yields the same URL: a structurally equal record (scheme, userinfo,
host and port, path, query, fragment) with equal collection contents. -/
theorem href_reparse_roundtrip (input base : ByteStr) (fresh : Nat) (u : URL)
    (h : newURL input base fresh = some u) :
    newURL (urlString u.inner) [] fresh = some u := by
  obtain ⟨hsch, hueq⟩ := newURL_inv input base fresh u h
  have hwf : URLWF u.inner := newURL_inner_wf input base fresh u h
  have hp : goParse (urlString u.inner) = some u.inner :=
    goParse_urlString u.inner hwf hsch
  have hri : resolveInput (urlString u.inner) [] = some u.inner := by
    rw [resolveInput_nil_some _ u.inner hp]
    exact if_neg (by simp [GoURL.isAbs, hsch])
  rw [newURL_eq_some _ _ fresh u.inner hri, if_neg hsch]
  exact congrArg some hueq.symm

/-- C8 witness: the parse of `"http://h?a"` re-parses from its
serialization to the same URL value. -/
theorem href_reparse_roundtrip_witness :
    newURL (urlString (⟨⟨[104, 116, 116, 112], [], none, [104], [], false, [97], []⟩,
        0, [([97], [])]⟩ : URL).inner) [] 0 =
      some ⟨⟨[104, 116, 116, 112], [], none, [104], [], false, [97], []⟩,
        0, [([97], [])]⟩ :=
  href_reparse_roundtrip [104, 116, 116, 112, 58, 47, 47, 104, 63, 97] [] 0
    ⟨⟨[104, 116, 116, 112], [], none, [104], [], false, [97], []⟩, 0, [([97], [])]⟩
    (by decide)

/-- C9 witness: resetting the href of the parsed `"http://h?a"` to
`"http://e?b=2"` keeps the collection token `0` and repopulates the
entries from the new query. -/
theorem setHref_preserves_identity_witness :
    (⟨⟨[104, 116, 116, 112], [], none, [101], [], false, [98, 61, 50], []⟩, 0,
        [([98], [50])]⟩ : URL).spId =
      (⟨⟨[104, 116, 116, 112], [], none, [104], [], false, [97], []⟩, 0,
        [([97], [])]⟩ : URL).spId ∧
    (⟨⟨[104, 116, 116, 112], [], none, [101], [], false, [98, 61, 50], []⟩, 0,
        [([98], [50])]⟩ : URL).spEntries =
      parseFormEncoded (⟨⟨[104, 116, 116, 112], [], none, [101], [], false,
        [98, 61, 50], []⟩, 0, [([98], [50])]⟩ : URL).inner.rawQuery :=
  setHref_preserves_identity
    ⟨⟨[104, 116, 116, 112], [], none, [104], [], false, [97], []⟩, 0, [([97], [])]⟩
    [104, 116, 116, 112, 58, 47, 47, 101, 63, 98, 61, 50]
    ⟨⟨[104, 116, 116, 112], [], none, [101], [], false, [98, 61, 50], []⟩, 0,
      [([98], [50])]⟩
    (by decide)

end SobekURL
